import Mathlib

/-!
Verification of the knot-annotation core of the Survey-website repository.

The TypeScript source is shallowly embedded:
* float coordinates become rationals; `Math.sqrt d < Math.sqrt d'` is replaced
  by the equivalent comparison `d < d'` of squared Euclidean distances
  (square root is strictly monotone on nonnegative values);
* `Array.prototype.sort` (stable since ES2019) with comparator
  `(a, b) => key a - key b` becomes an insertion sort that is stable and
  ascending in the key, which characterises the same function;
* a JavaScript `Map` (insertion-ordered, unique keys) becomes an association
  list with in-place update on `set` of an existing key;
* knot id strings (`start-knot-*`, `end-knot-*`, `knot-<timestamp>`) become a
  three-constructor inductive; the source's `id.startsWith` tests become
  constructor tests.
-/

namespace SurveyKnots

/-! ## A stable ascending sort, modelling `Array.prototype.sort` -/

/-- Insert `x` after every element `y` of `l` with `le y x`; on a list sorted
by `le` this places `x` at the last position compatible with the order, which
is what a stable sort does with later-encountered elements. -/
def ordInsert (le : α → α → Bool) (x : α) : List α → List α
  | [] => [x]
  | y :: ys => if le y x then y :: ordInsert le x ys else x :: y :: ys

/-- Stable ascending sort by the boolean order `le`: fold the input from the
left, inserting each element behind its equals.  This is the specification of
the ES2019 `Array.prototype.sort` with comparator `(a, b) => key a - key b`. -/
def stableSort (le : α → α → Bool) (l : List α) : List α :=
  l.foldl (fun acc x => ordInsert le x acc) []

theorem ordInsert_perm (le : α → α → Bool) (x : α) (l : List α) :
    (ordInsert le x l).Perm (x :: l) := by
  induction l with
  | nil => simp [ordInsert]
  | cons y ys ih =>
    simp only [ordInsert]
    by_cases h : le y x
    · simp only [h, if_true]
      exact ((ih.cons y).trans (List.Perm.swap x y ys))
    · simp [h]

theorem stableSort_loop_perm (le : α → α → Bool) (l acc : List α) :
    (l.foldl (fun a x => ordInsert le x a) acc).Perm (acc ++ l) := by
  induction l generalizing acc with
  | nil => simp
  | cons x xs ih =>
    simp only [List.foldl_cons]
    refine (ih (ordInsert le x acc)).trans ?_
    have h1 : (ordInsert le x acc ++ xs).Perm ((x :: acc) ++ xs) :=
      (ordInsert_perm le x acc).append_right xs
    refine h1.trans ?_
    simp only [List.cons_append]
    exact (List.perm_middle).symm

theorem stableSort_perm (le : α → α → Bool) (l : List α) :
    (stableSort le l).Perm l := by
  simpa using stableSort_loop_perm le l []

theorem ordInsert_pairwise (le : α → α → Bool)
    (htot : ∀ a b, le a b = true ∨ le b a = true)
    (htrans : ∀ a b c, le a b = true → le b c = true → le a c = true)
    (x : α) (l : List α)
    (hl : l.Pairwise (fun a b => le a b = true)) :
    (ordInsert le x l).Pairwise (fun a b => le a b = true) := by
  induction l with
  | nil => simp [ordInsert]
  | cons y ys ih =>
    rcases hl with _ | ⟨hy, hys⟩
    simp only [ordInsert]
    by_cases h : le y x
    · simp only [h, if_true]
      refine List.Pairwise.cons ?_ (ih hys)
      intro b hb
      have hb' : b ∈ x :: ys := (ordInsert_perm le x ys).subset hb
      rcases List.mem_cons.mp hb' with rfl | hb''
      · exact h
      · exact hy b hb''
    · have hxy : le x y = true := by
        rcases htot x y with hxy | hyx
        · exact hxy
        · exact absurd hyx h
      simp only [h, if_false]
      refine List.Pairwise.cons ?_ (List.Pairwise.cons hy hys)
      intro b hb
      rcases List.mem_cons.mp hb with rfl | hb'
      · exact hxy
      · exact htrans x y b hxy (hy b hb')

theorem stableSort_pairwise (le : α → α → Bool)
    (htot : ∀ a b, le a b = true ∨ le b a = true)
    (htrans : ∀ a b c, le a b = true → le b c = true → le a c = true)
    (l : List α) :
    (stableSort le l).Pairwise (fun a b => le a b = true) := by
  have main : ∀ (l acc : List α),
      acc.Pairwise (fun a b => le a b = true) →
      (l.foldl (fun a x => ordInsert le x a) acc).Pairwise
        (fun a b => le a b = true) := by
    intro l
    induction l with
    | nil => intro acc h; simpa using h
    | cons x xs ih =>
      intro acc h
      exact ih (ordInsert le x acc) (ordInsert_pairwise le htot htrans x acc h)
  exact main l [] (List.Pairwise.nil)

/-- Inserting behind all elements: on a list every element of which is
`le`-below `x`, `ordInsert` appends `x` at the end. -/
theorem ordInsert_of_all_le (le : α → α → Bool) (x : α) (l : List α)
    (h : ∀ y ∈ l, le y x = true) : ordInsert le x l = l ++ [x] := by
  induction l with
  | nil => simp [ordInsert]
  | cons y ys ih =>
    have hy : le y x = true := h y (List.mem_cons_self y ys)
    simp only [ordInsert, hy, if_true, List.cons_append]
    rw [ih (fun z hz => h z (List.mem_cons_of_mem y hz))]

/-- A list that is already pairwise sorted is left unchanged by the sort. -/
theorem stableSort_of_pairwise (le : α → α → Bool) (l : List α)
    (h : l.Pairwise (fun a b => le a b = true)) : stableSort le l = l := by
  have main : ∀ (l acc : List α),
      (acc ++ l).Pairwise (fun a b => le a b = true) →
      l.foldl (fun a x => ordInsert le x a) acc = acc ++ l := by
    intro l
    induction l with
    | nil => intro acc _; simp
    | cons x xs ih =>
      intro acc hacc
      simp only [List.foldl_cons]
      have hx : ∀ y ∈ acc, le y x = true := by
        intro y hy
        have := (List.pairwise_append.mp hacc).2.2
        exact this y hy x (List.mem_cons_self x xs)
      rw [ordInsert_of_all_le le x acc hx]
      have : (acc ++ [x]) ++ xs = acc ++ x :: xs := by simp
      rw [ih (acc ++ [x]) (by rwa [this])]
      simp
  simpa using main l [] (by simpa using h)

/-- Two permuted lists, both pairwise sorted by `le`, with `le` antisymmetric
on the elements involved, are equal.  (The key-injectivity form of sorted-list
uniqueness; stated for boolean orders so it applies to the embedded sorts.) -/
theorem perm_pairwise_eq (le : α → α → Bool) :
    ∀ (l₁ l₂ : List α), l₁.Perm l₂ →
    l₁.Pairwise (fun a b => le a b = true) →
    l₂.Pairwise (fun a b => le a b = true) →
    (∀ a ∈ l₁, ∀ b ∈ l₁, le a b = true → le b a = true → a = b) →
    l₁ = l₂
  | [], [], _, _, _, _ => rfl
  | [], b :: l₂, hp, _, _, _ => absurd hp (by simp)
  | a :: l₁, [], hp, _, _, _ => absurd hp (by simp)
  | a :: l₁, b :: l₂, hp, hs₁, hs₂, hanti => by
    rcases hs₁ with _ | ⟨ha, hs₁'⟩
    rcases hs₂ with _ | ⟨hb, hs₂'⟩
    have hab : a = b := by
      have hmem_a : a ∈ b :: l₂ := hp.subset (List.mem_cons_self a l₁)
      rcases List.mem_cons.mp hmem_a with h | h
      · exact h
      · have hba : le b a = true := hb a h
        have hmem_b : b ∈ a :: l₁ := hp.symm.subset (List.mem_cons_self b l₂)
        rcases List.mem_cons.mp hmem_b with h' | h'
        · exact h'.symm
        · have hab' : le a b = true := ha b h'
          exact hanti a (List.mem_cons_self a l₁) b hmem_b hab' hba
    subst hab
    have hp' : l₁.Perm l₂ := hp.cons_inv
    have : l₁ = l₂ :=
      perm_pairwise_eq le l₁ l₂ hp' hs₁' hs₂'
        (fun x hx y hy => hanti x (List.mem_cons_of_mem a hx) y
          (List.mem_cons_of_mem a hy))
    rw [this]

/-! ## Data model -/

/-- One observed trajectory point (the source's `TrajectoryData` records,
served sorted or sortable by `sceneId`). -/
structure TrajectorySample where
  sceneId : Int
  trackId : Int
  localX : ℚ
  localY : ℚ
deriving DecidableEq, Repr

/-- Knot identifiers.  The source uses strings: `start-knot-<trackId>`,
`end-knot-<trackId>` for the two automatic endpoint knots and
`knot-<Date.now()>` for user-placed ones; every test on them is a prefix
test, embedded here as a constructor test. -/
inductive KnotId where
  | startKnot (trackId : Int)
  | endKnot (trackId : Int)
  | manualKnot (stamp : Nat)
deriving DecidableEq, Repr

/-- The source's test `id.startsWith "start-knot"`. -/
def KnotId.isStart : KnotId → Bool
  | .startKnot _ => true
  | _ => false

/-- The source's test `id.startsWith "end-knot"`. -/
def KnotId.isEnd : KnotId → Bool
  | .endKnot _ => true
  | _ => false

/-- The source's test
`!id.startsWith "start-knot" && !id.startsWith "end-knot"`. -/
def KnotId.isManual (k : KnotId) : Bool := !k.isStart && !k.isEnd

/-- A placed knot (source interface `KnotAnnotation`): coordinates plus the
optional creation-time placement rank recorded in the `order` field. -/
structure KnotAnnotation where
  id : KnotId
  x : ℚ
  y : ℚ
  order : Option Nat := none
deriving DecidableEq, Repr

/-! ## Algorithm A: nearest-sample-index projection -/

/-- Squared Euclidean distance from a trajectory sample to the point
`(kx, ky)`; the source compares `Math.sqrt` of this quantity, and square
root is strictly monotone, so all comparisons agree. -/
def sampleDist2 (p : TrajectorySample) (kx ky : ℚ) : ℚ :=
  (p.localX - kx) ^ 2 + (p.localY - ky) ^ 2

/-- One step of the source's scan
`let minDistance = Infinity; let closestIndex = 0;
 trajectoryData.forEach((point, index) => { ... if (distance < minDistance) ... })`.
The accumulator is `(closestIndex, index, minDistance)` with
`minDistance = Infinity` embedded as `none` (every distance is below it). -/
def closestScan (kx ky : ℚ) (acc : Nat × Nat × Option ℚ)
    (p : TrajectorySample) : Nat × Nat × Option ℚ :=
  let d := sampleDist2 p kx ky
  match acc with
  | (_, i, none) => (i, i + 1, some d)
  | (best, i, some bd) =>
      if d < bd then (i, i + 1, some d) else (best, i + 1, some bd)

/-- The source's `findClosestTrajectoryIndex` (admin review view) and the
identical inner scan of `createTrajectoryFollowingPath` (live view): index of
the sample closest to the knot, first occurrence winning ties. -/
def findClosestTrajectoryIndex (trajectoryData : List TrajectorySample)
    (knot : KnotAnnotation) : Nat :=
  (trajectoryData.foldl (closestScan knot.x knot.y) (0, 0, none)).1

/-- The source's `createTrajectoryFollowingPath`: pair each knot with its
nearest sample index, stable-sort ascending by that index
(`.sort((a, b) => a.trajectoryIndex - b.trajectoryIndex)`), and strip the
indices; lists of at most one knot are returned as-is. -/
def createTrajectoryFollowingPath (trajectoryData : List TrajectorySample)
    (knots : List KnotAnnotation) : List KnotAnnotation :=
  if knots.length ≤ 1 then knots
  else
    (stableSort (fun a b => decide (a.2 ≤ b.2))
        (knots.map (fun knot =>
          (knot, findClosestTrajectoryIndex trajectoryData knot)))).map
      Prod.fst

/-- Specification-side description of the resolved index: `i` points at a
sample of minimal distance to `(kx, ky)`, and every strictly earlier sample
is strictly farther (ties in distance broken by the smallest index). -/
def NearestSampleIndex (data : List TrajectorySample) (kx ky : ℚ)
    (i : Nat) : Prop :=
  ∃ p, data[i]? = some p ∧
    (∀ (j : Nat) (q : TrajectorySample), data[j]? = some q →
      sampleDist2 p kx ky ≤ sampleDist2 q kx ky) ∧
    (∀ j < i, ∀ (q : TrajectorySample), data[j]? = some q →
      sampleDist2 p kx ky < sampleDist2 q kx ky)

theorem closestFold_spec (kx ky : ℚ) (data : List TrajectorySample) :
    (data.foldl (closestScan kx ky) (0, 0, none)).2.1 = data.length ∧
    ((data = [] ∧ data.foldl (closestScan kx ky) (0, 0, none) = (0, 0, none)) ∨
      NearestSampleIndex data kx ky
          (data.foldl (closestScan kx ky) (0, 0, none)).1 ∧
        (data.foldl (closestScan kx ky) (0, 0, none)).2.2 =
          (data[(data.foldl (closestScan kx ky) (0, 0, none)).1]?).map
            (fun p => sampleDist2 p kx ky)) := by
  induction data using List.reverseRecOn with
  | nil => simp
  | append_singleton l p ih =>
    obtain ⟨hlen, hcase⟩ := ih
    rw [List.foldl_append]
    rcases hcase with ⟨hnil, hacc⟩ | ⟨⟨q, hq, hmin, hstrict⟩, hd⟩
    · subst hnil
      clear hacc hlen
      simp only [List.nil_append, List.foldl_cons, List.foldl_nil, closestScan]
      refine ⟨rfl, Or.inr ⟨⟨p, rfl, ?_, ?_⟩, rfl⟩⟩
      · intro j r hr
        match j, hr with
        | 0, hr =>
          simp only [List.getElem?_cons_zero, Option.some.injEq] at hr
          subst hr
          exact le_refl _
        | j + 1, hr => simp at hr
      · intro j hj r hr
        exact absurd hj (Nat.not_lt_zero j)
    · set acc := l.foldl (closestScan kx ky) (0, 0, none) with hacc
      clear hacc
      obtain ⟨best, next, md⟩ := acc
      replace hlen : next = l.length := hlen
      subst hlen
      replace hq : l[best]? = some q := hq
      replace hd : md =
          Option.map (fun r => sampleDist2 r kx ky) l[best]? := hd
      replace hstrict : ∀ j < best, ∀ (r : TrajectorySample),
          l[j]? = some r →
          sampleDist2 q kx ky < sampleDist2 r kx ky := hstrict
      have hqlen : best < l.length := by
        by_contra hb
        rw [List.getElem?_eq_none (Nat.le_of_not_lt hb)] at hq
        exact Option.noConfusion hq
      rw [List.getElem?_eq_getElem hqlen] at hq hd
      have hq' : l[best] = q := by injection hq
      subst hq'
      replace hd : md = some (sampleDist2 (l[best]) kx ky) := hd
      subst hd
      simp only [List.foldl_cons, List.foldl_nil, closestScan]
      by_cases hlt : sampleDist2 p kx ky < sampleDist2 (l[best]) kx ky
      · simp only [hlt, if_true]
        refine ⟨by simp, Or.inr ⟨⟨p, ?_, ?_, ?_⟩, ?_⟩⟩
        · rw [List.getElem?_concat_length]
        · intro j r hr
          rcases Nat.lt_or_ge j l.length with hjl | hjl
          · rw [List.getElem?_append_left hjl] at hr
            exact le_of_lt (lt_of_lt_of_le hlt (hmin j r hr))
          · rcases Nat.eq_or_lt_of_le hjl with rfl | hjl'
            · rw [List.getElem?_concat_length] at hr
              cases hr
              exact le_refl _
            · rw [List.getElem?_eq_none (by simpa using hjl')] at hr
              exact Option.noConfusion hr
        · intro j hj r hr
          have hjl : j < l.length := hj
          rw [List.getElem?_append_left hjl] at hr
          exact lt_of_lt_of_le hlt (hmin j r hr)
        · rw [List.getElem?_concat_length]
          rfl
      · simp only [hlt, if_false]
        refine ⟨by simp, Or.inr ⟨⟨l[best], ?_, ?_, ?_⟩, ?_⟩⟩
        · rw [List.getElem?_append_left hqlen, List.getElem?_eq_getElem hqlen]
        · intro j r hr
          rcases Nat.lt_or_ge j l.length with hjl | hjl
          · rw [List.getElem?_append_left hjl] at hr
            exact hmin j r hr
          · rcases Nat.eq_or_lt_of_le hjl with rfl | hjl'
            · rw [List.getElem?_concat_length] at hr
              cases hr
              exact le_of_not_lt hlt
            · rw [List.getElem?_eq_none (by simpa using hjl')] at hr
              exact Option.noConfusion hr
        · intro j hj r hr
          have hjl : j < l.length := lt_trans hj hqlen
          rw [List.getElem?_append_left hjl] at hr
          exact hstrict j hj r hr
        · rw [List.getElem?_append_left hqlen, List.getElem?_eq_getElem hqlen]
          rfl

/-- For nonempty sample data, `findClosestTrajectoryIndex` resolves each knot
to the first index of minimal Euclidean distance. -/
theorem findClosestTrajectoryIndex_spec (data : List TrajectorySample)
    (knot : KnotAnnotation) (hdata : data ≠ []) :
    NearestSampleIndex data knot.x knot.y
      (findClosestTrajectoryIndex data knot) := by
  obtain ⟨_, hcase⟩ := closestFold_spec knot.x knot.y data
  rcases hcase with ⟨hnil, _⟩ | ⟨hspec, _⟩
  · exact absurd hnil hdata
  · exact hspec

theorem ordInsert_map (g : α → β) (le : α → α → Bool) (le' : β → β → Bool)
    (hg : ∀ a b, le' (g a) (g b) = le a b) (x : α) (l : List α) :
    ordInsert le' (g x) (l.map g) = (ordInsert le x l).map g := by
  induction l with
  | nil => simp [ordInsert]
  | cons y ys ih =>
    simp only [List.map_cons, ordInsert, hg]
    by_cases h : le y x
    · simp [h, ih]
    · simp [h]

theorem stableSort_map (g : α → β) (le : α → α → Bool) (le' : β → β → Bool)
    (hg : ∀ a b, le' (g a) (g b) = le a b) (l : List α) :
    stableSort le' (l.map g) = (stableSort le l).map g := by
  have main : ∀ (l acc : List α),
      (l.map g).foldl (fun a x => ordInsert le' x a) (acc.map g) =
        (l.foldl (fun a x => ordInsert le x a) acc).map g := by
    intro l
    induction l with
    | nil => intro acc; simp
    | cons x xs ih =>
      intro acc
      simp only [List.map_cons, List.foldl_cons]
      rw [ordInsert_map g le le' hg x acc, ih (ordInsert le x acc)]
  simpa using main l []

/-- The resolver returns a permutation of its input. -/
theorem createTrajectoryFollowingPath_perm (trajectoryData : List TrajectorySample)
    (knots : List KnotAnnotation) :
    (createTrajectoryFollowingPath trajectoryData knots).Perm knots := by
  unfold createTrajectoryFollowingPath
  by_cases h : knots.length ≤ 1
  · simp [h]
  · simp only [h, if_false]
    refine ((stableSort_perm _ _).map Prod.fst).trans ?_
    rw [List.map_map]
    rw [show (Prod.fst ∘ fun knot =>
          (knot, findClosestTrajectoryIndex trajectoryData knot))
        = fun k : KnotAnnotation => k from rfl]
    rw [show (List.map (fun k : KnotAnnotation => k) knots) = knots from
      List.map_id knots]

/-- The resolver output is pairwise ascending in the nearest-sample index. -/
theorem createTrajectoryFollowingPath_pairwise
    (trajectoryData : List TrajectorySample) (knots : List KnotAnnotation) :
    (createTrajectoryFollowingPath trajectoryData knots).Pairwise
      (fun a b => findClosestTrajectoryIndex trajectoryData a ≤
        findClosestTrajectoryIndex trajectoryData b) := by
  unfold createTrajectoryFollowingPath
  by_cases h : knots.length ≤ 1
  · simp only [h, if_true]
    match knots with
    | [] => exact List.Pairwise.nil
    | [k] => exact List.pairwise_singleton _ _
    | a :: b :: l => simp at h
  · simp only [h, if_false]
    set pairs := knots.map (fun knot =>
      (knot, findClosestTrajectoryIndex trajectoryData knot)) with hpairs
    have hsorted := stableSort_pairwise
      (fun a b : KnotAnnotation × Nat => decide (a.2 ≤ b.2))
      (fun a b => by
        rcases Nat.le_total a.2 b.2 with h' | h'
        · exact Or.inl (by simpa using h')
        · exact Or.inr (by simpa using h'))
      (fun a b c hab hbc => by
        simp only [decide_eq_true_eq] at *
        exact le_trans hab hbc)
      pairs
    have hmem : ∀ pr ∈ stableSort
        (fun a b : KnotAnnotation × Nat => decide (a.2 ≤ b.2)) pairs,
        pr.2 = findClosestTrajectoryIndex trajectoryData pr.1 := by
      intro pr hpr
      have : pr ∈ pairs := (stableSort_perm _ pairs).subset hpr
      rw [hpairs] at this
      obtain ⟨k, _, rfl⟩ := List.mem_map.mp this
      rfl
    rw [List.pairwise_map]
    refine hsorted.imp_of_mem ?_
    intro a b ha hb hab
    have ha2 := hmem a ha
    have hb2 := hmem b hb
    simp only [decide_eq_true_eq] at hab
    rw [ha2, hb2] at hab
    exact hab

/-- Replace a knot's id, keeping coordinates and order (used to state that
the resolver ignores the Start/End/Manual distinction). -/
def relabelKnot (relabel : KnotId → KnotId) (k : KnotAnnotation) :
    KnotAnnotation :=
  ⟨relabel k.id, k.x, k.y, k.order⟩

/-- The resolver only reads coordinates: relabelling every knot id (in
particular swapping Start/End/Manual roles) commutes with resolving. -/
theorem createTrajectoryFollowingPath_relabel
    (trajectoryData : List TrajectorySample) (knots : List KnotAnnotation)
    (relabel : KnotId → KnotId) :
    createTrajectoryFollowingPath trajectoryData
        (knots.map (relabelKnot relabel)) =
      (createTrajectoryFollowingPath trajectoryData knots).map
        (relabelKnot relabel) := by
  unfold createTrajectoryFollowingPath
  by_cases h : knots.length ≤ 1
  · simp [h]
  · have h' : ¬((knots.map (relabelKnot relabel)).length ≤ 1) := by
      simpa using h
    simp only [h, h', if_false]
    have hmaps : (knots.map (relabelKnot relabel)).map
          (fun knot => (knot, findClosestTrajectoryIndex trajectoryData knot)) =
        (knots.map (fun knot =>
          (knot, findClosestTrajectoryIndex trajectoryData knot))).map
          (fun pr => (relabelKnot relabel pr.1, pr.2)) := by
      rw [List.map_map, List.map_map]
      rfl
    rw [hmaps, stableSort_map
        (fun pr : KnotAnnotation × Nat => (relabelKnot relabel pr.1, pr.2))
        (fun a b => decide (a.2 ≤ b.2)) (fun a b => decide (a.2 ≤ b.2))
        (fun a b => rfl)]
    rw [List.map_map, List.map_map]
    rfl

/-- C1: for nonempty sample data, Algorithm A (the live view's
`createTrajectoryFollowingPath`, identical to the admin view's
`findClosestTrajectoryIndex` sort) returns a permutation of the input knots,
pairwise ascending in each knot's nearest-sample index, where that index is
the first sample index attaining the minimal Euclidean distance (ties in
distance go to the smallest index); knot ids, and hence the Start/End/Manual
distinction, are irrelevant: relabelling commutes with resolving. -/
theorem C1_nearest_sample_index_projection
    (trajectoryData : List TrajectorySample) (knots : List KnotAnnotation)
    (hdata : trajectoryData ≠ []) :
    (createTrajectoryFollowingPath trajectoryData knots).Perm knots ∧
    (createTrajectoryFollowingPath trajectoryData knots).Pairwise
      (fun a b => findClosestTrajectoryIndex trajectoryData a ≤
        findClosestTrajectoryIndex trajectoryData b) ∧
    (∀ k ∈ knots, NearestSampleIndex trajectoryData k.x k.y
      (findClosestTrajectoryIndex trajectoryData k)) ∧
    (∀ relabel : KnotId → KnotId,
      createTrajectoryFollowingPath trajectoryData
          (knots.map (relabelKnot relabel)) =
        (createTrajectoryFollowingPath trajectoryData knots).map
          (relabelKnot relabel)) :=
  ⟨createTrajectoryFollowingPath_perm trajectoryData knots,
   createTrajectoryFollowingPath_pairwise trajectoryData knots,
   fun k _ => findClosestTrajectoryIndex_spec trajectoryData k hdata,
   createTrajectoryFollowingPath_relabel trajectoryData knots⟩

/-! ## Algorithm B: greedy nearest-neighbour spatial chaining -/

/-- A knot as processed by the archival review view (source interface
`ProcessedKnot`): coordinates plus placement order. -/
structure ProcessedKnot where
  x : ℚ
  y : ℚ
  order : Nat
deriving DecidableEq, Repr

/-- Squared Euclidean distance from the chain endpoint `cur` to a candidate
knot; the source compares `Math.sqrt(dx * dx + dy * dy)`, and square root is
strictly monotone, so all comparisons agree. -/
def knotDist2 (cur k : ProcessedKnot) : ℚ :=
  (k.x - cur.x) ^ 2 + (k.y - cur.y) ^ 2

/-- Tail of the source's selection scans.  Both the seed
`remaining.reduce((min, knot) => knot.x < min.x ? knot : min)` and the
nearest-neighbour `for` loop keep the current winner on ties (strict `<`),
so both are scans keeping the first minimiser.  `i` is the index of the next
candidate, `best` / `bd` the winning index and its key so far. -/
def argminScan (f : ProcessedKnot → ℚ) :
    List ProcessedKnot → Nat → Nat → ℚ → Nat
  | [], _, best, _ => best
  | b :: l, i, best, bd =>
      if f b < bd then argminScan f l (i + 1) i (f b)
      else argminScan f l (i + 1) best bd

/-- Index of the first element minimising `f`.  The source then removes the
winner with `remaining.splice(remaining.indexOf(winner), 1)`; `indexOf` finds
the winner's own position because the scan already keeps the first minimiser,
so removal by this index is exact. -/
def argminIdx (f : ProcessedKnot → ℚ) : List ProcessedKnot → Nat
  | [] => 0
  | a :: l => argminScan f l 1 0 (f a)

/-- Specification-side description of the scans: position `i` holds an
element of minimal key and every strictly earlier element has a strictly
larger key (first-encountered tie-break). -/
def FirstMinAt (f : ProcessedKnot → ℚ) (l : List ProcessedKnot)
    (i : Nat) : Prop :=
  ∃ a, l[i]? = some a ∧
    (∀ (j : Nat) (b : ProcessedKnot), l[j]? = some b → f a ≤ f b) ∧
    (∀ j < i, ∀ (b : ProcessedKnot), l[j]? = some b → f a < f b)

theorem argminScan_spec (f : ProcessedKnot → ℚ) :
    ∀ (l pre : List ProcessedKnot) (best : Nat) (a : ProcessedKnot),
    best < pre.length → pre[best]? = some a →
    (∀ (j : Nat) (b : ProcessedKnot), pre[j]? = some b → f a ≤ f b) →
    (∀ j < best, ∀ (b : ProcessedKnot), pre[j]? = some b → f a < f b) →
    FirstMinAt f (pre ++ l) (argminScan f l pre.length best (f a))
  | [], pre, best, a, hlt, ha, hmin, hstrict => by
    simp only [argminScan, List.append_nil]
    exact ⟨a, ha, hmin, hstrict⟩
  | b :: l, pre, best, a, hlt, ha, hmin, hstrict => by
    simp only [argminScan]
    have hpre : (pre ++ b :: l) = (pre ++ [b]) ++ l := by simp
    by_cases hb : f b < f a
    · simp only [hb, if_true]
      rw [hpre]
      have := argminScan_spec f l (pre ++ [b]) pre.length b
        (by simp) (List.getElem?_concat_length pre b)
        (fun j c hc => by
          rcases Nat.lt_or_ge j pre.length with hj | hj
          · rw [List.getElem?_append_left hj] at hc
            exact le_of_lt (lt_of_lt_of_le hb (hmin j c hc))
          · rcases Nat.eq_or_lt_of_le hj with rfl | hj'
            · rw [List.getElem?_concat_length] at hc
              cases hc
              exact le_refl _
            · rw [List.getElem?_eq_none (by simpa using hj')] at hc
              exact Option.noConfusion hc)
        (fun j hj c hc => by
          rw [List.getElem?_append_left hj] at hc
          exact lt_of_lt_of_le hb (hmin j c hc))
      simpa using this
    · simp only [hb, if_false]
      rw [hpre]
      have := argminScan_spec f l (pre ++ [b]) best a
        (by simp; omega) (by rw [List.getElem?_append_left hlt]; exact ha)
        (fun j c hc => by
          rcases Nat.lt_or_ge j pre.length with hj | hj
          · rw [List.getElem?_append_left hj] at hc
            exact hmin j c hc
          · rcases Nat.eq_or_lt_of_le hj with rfl | hj'
            · rw [List.getElem?_concat_length] at hc
              cases hc
              exact le_of_not_lt hb
            · rw [List.getElem?_eq_none (by simpa using hj')] at hc
              exact Option.noConfusion hc)
        (fun j hj c hc => by
          rw [List.getElem?_append_left (lt_trans hj hlt)] at hc
          exact hstrict j hj c hc)
      simpa using this

theorem argminIdx_spec (f : ProcessedKnot → ℚ) (l : List ProcessedKnot)
    (hl : l ≠ []) : FirstMinAt f l (argminIdx f l) := by
  match l with
  | [] => exact absurd rfl hl
  | a :: l =>
    have := argminScan_spec f l [a] 0 a (by simp) (by simp)
      (fun j b hb => by
        match j, hb with
        | 0, hb =>
          simp only [List.getElem?_cons_zero, Option.some.injEq] at hb
          subst hb
          exact le_refl _
        | j + 1, hb => simp at hb)
      (fun j hj b hb => absurd hj (Nat.not_lt_zero j))
    simpa [argminIdx] using this

theorem argminIdx_lt (f : ProcessedKnot → ℚ) (l : List ProcessedKnot)
    (hl : l ≠ []) : argminIdx f l < l.length := by
  obtain ⟨a, ha, -, -⟩ := argminIdx_spec f l hl
  by_contra h
  rw [List.getElem?_eq_none (Nat.le_of_not_lt h)] at ha
  exact Option.noConfusion ha

/-- The source's `while (remaining.length > 0)` nearest-neighbour loop: pick
the first unvisited knot of minimal distance to the current endpoint, append
it, remove it, and continue from it. -/
def greedyChainLoop : ProcessedKnot → List ProcessedKnot → List ProcessedKnot
  | _, [] => []
  | cur, a :: l =>
      (a :: l).getD (argminIdx (knotDist2 cur) (a :: l)) a ::
        greedyChainLoop ((a :: l).getD (argminIdx (knotDist2 cur) (a :: l)) a)
          ((a :: l).eraseIdx (argminIdx (knotDist2 cur) (a :: l)))
termination_by _ l => l.length
decreasing_by
  have hi : argminIdx (knotDist2 cur) (a :: l) < (a :: l).length :=
    argminIdx_lt _ _ (by simp)
  rw [List.length_eraseIdx]
  simp only [hi, if_true]
  omega

/-- The source's `createTrajectoryOrderedPath` (archival review view): seed
with the first knot of minimal `x`, then chain greedily by nearest
neighbour; lists of at most one knot are returned as-is. -/
def createTrajectoryOrderedPath (knots : List ProcessedKnot) :
    List ProcessedKnot :=
  if knots.length ≤ 1 then knots
  else
    match knots with
    | [] => []
    | a :: l =>
        (a :: l).getD (argminIdx (fun k => k.x) (a :: l)) a ::
          greedyChainLoop ((a :: l).getD (argminIdx (fun k => k.x) (a :: l)) a)
            ((a :: l).eraseIdx (argminIdx (fun k => k.x) (a :: l)))

/-- Spec §4.2 Algorithm B step 2 as a relation: from current endpoint `cur`
and unvisited knots `rem` (in stable input order), the output repeatedly
takes the first-encountered unvisited knot of minimal Euclidean distance to
the current endpoint, which then becomes the new endpoint. -/
inductive GreedyFrom :
    ProcessedKnot → List ProcessedKnot → List ProcessedKnot → Prop
  | nil (cur : ProcessedKnot) : GreedyFrom cur [] []
  | step (cur : ProcessedKnot) (rem : List ProcessedKnot) (i : Nat)
      (k : ProcessedKnot) (out : List ProcessedKnot) :
      rem[i]? = some k →
      (∀ (j : Nat) (b : ProcessedKnot), rem[j]? = some b →
        knotDist2 cur k ≤ knotDist2 cur b) →
      (∀ j < i, ∀ (b : ProcessedKnot), rem[j]? = some b →
        knotDist2 cur k < knotDist2 cur b) →
      GreedyFrom k (rem.eraseIdx i) out →
      GreedyFrom cur rem (k :: out)

theorem perm_cons_eraseIdx :
    ∀ (l : List α) (i : Nat) (a : α), l[i]? = some a →
    l.Perm (a :: l.eraseIdx i)
  | [], i, a, h => by simp at h
  | b :: l, 0, a, h => by
    simp only [List.getElem?_cons_zero, Option.some.injEq] at h
    subst h
    simp [List.eraseIdx]
  | b :: l, i + 1, a, h => by
    simp only [List.getElem?_cons_succ] at h
    have := perm_cons_eraseIdx l i a h
    simp only [List.eraseIdx]
    exact ((this.cons b).trans (List.Perm.swap a b _))

theorem getD_of_getElem? (l : List α) (i : Nat) (a d : α)
    (h : l[i]? = some a) : l.getD i d = a := by
  simp [List.getD, h]

theorem greedyChainLoop_perm :
    ∀ (rem : List ProcessedKnot) (cur : ProcessedKnot),
    (greedyChainLoop cur rem).Perm rem
  | [], cur => by simp [greedyChainLoop]
  | a :: l, cur => by
    rw [greedyChainLoop]
    obtain ⟨b, hb, -, -⟩ :=
      argminIdx_spec (knotDist2 cur) (a :: l) (by simp)
    rw [getD_of_getElem? _ _ _ _ hb]
    have hperm := greedyChainLoop_perm
      ((a :: l).eraseIdx (argminIdx (knotDist2 cur) (a :: l))) b
    exact (hperm.cons b).trans (perm_cons_eraseIdx (a :: l) _ b hb).symm
termination_by rem _ => rem.length
decreasing_by
  have hi : argminIdx (knotDist2 cur) (a :: l) < (a :: l).length :=
    argminIdx_lt _ _ (by simp)
  rw [List.length_eraseIdx]
  simp only [hi, if_true]
  omega

theorem greedyChainLoop_greedyFrom :
    ∀ (rem : List ProcessedKnot) (cur : ProcessedKnot),
    GreedyFrom cur rem (greedyChainLoop cur rem)
  | [], cur => by
    rw [greedyChainLoop]
    exact GreedyFrom.nil cur
  | a :: l, cur => by
    rw [greedyChainLoop]
    obtain ⟨b, hb, hmin, hstrict⟩ :=
      argminIdx_spec (knotDist2 cur) (a :: l) (by simp)
    rw [getD_of_getElem? _ _ _ _ hb]
    exact GreedyFrom.step cur (a :: l) (argminIdx (knotDist2 cur) (a :: l))
      b _ hb hmin hstrict
      (greedyChainLoop_greedyFrom
        ((a :: l).eraseIdx (argminIdx (knotDist2 cur) (a :: l))) b)
termination_by rem _ => rem.length
decreasing_by
  have hi : argminIdx (knotDist2 cur) (a :: l) < (a :: l).length :=
    argminIdx_lt _ _ (by simp)
  rw [List.length_eraseIdx]
  simp only [hi, if_true]
  omega

/-- C2: for nonempty input, Algorithm B (the archival review view's
`createTrajectoryOrderedPath`) emits every input knot exactly once (a
permutation), starts with the first-encountered knot of minimal `x`
coordinate, and continues by the greedy first-encountered nearest-neighbour
rule from each chain endpoint. -/
theorem C2_greedy_nearest_neighbor_chaining (knots : List ProcessedKnot)
    (hne : knots ≠ []) :
    (createTrajectoryOrderedPath knots).Perm knots ∧
    ∃ i k, knots[i]? = some k ∧
      (∀ (j : Nat) (b : ProcessedKnot), knots[j]? = some b → k.x ≤ b.x) ∧
      (∀ j < i, ∀ (b : ProcessedKnot), knots[j]? = some b → k.x < b.x) ∧
      (createTrajectoryOrderedPath knots).head? = some k ∧
      GreedyFrom k (knots.eraseIdx i)
        (createTrajectoryOrderedPath knots).tail := by
  match knots, hne with
  | [k], _ =>
    refine ⟨by simp [createTrajectoryOrderedPath], 0, k, by simp, ?_, ?_, ?_, ?_⟩
    · intro j b hb
      match j, hb with
      | 0, hb =>
        simp only [List.getElem?_cons_zero, Option.some.injEq] at hb
        subst hb
        exact le_refl _
      | j + 1, hb => simp at hb
    · intro j hj b hb
      exact absurd hj (Nat.not_lt_zero j)
    · simp [createTrajectoryOrderedPath]
    · simp only [createTrajectoryOrderedPath, List.eraseIdx]
      simp
      exact GreedyFrom.nil k
  | a :: b :: l, _ =>
    have hlen : ¬((a :: b :: l).length ≤ 1) := by simp
    obtain ⟨k, hk, hmin, hstrict⟩ :=
      argminIdx_spec (fun k => k.x) (a :: b :: l) (by simp)
    constructor
    · simp only [createTrajectoryOrderedPath, hlen, if_false]
      rw [getD_of_getElem? _ _ _ _ hk]
      exact ((greedyChainLoop_perm _ k).cons k).trans
        (perm_cons_eraseIdx (a :: b :: l) _ k hk).symm
    · refine ⟨argminIdx (fun k => k.x) (a :: b :: l), k, hk, hmin, hstrict, ?_, ?_⟩
      · simp only [createTrajectoryOrderedPath, hlen, if_false]
        rw [getD_of_getElem? _ _ _ _ hk]
        rfl
      · simp only [createTrajectoryOrderedPath, hlen, if_false]
        rw [getD_of_getElem? _ _ _ _ hk]
        exact greedyChainLoop_greedyFrom _ k

/-- C1 witness: the spec §8 concrete scenario, samples
`(0,0) sceneId 1, (1,1) sceneId 2, (2,0) sceneId 3` with Start, Manual and
End knots on the three sample positions. -/
theorem C1_nearest_sample_index_projection_witness :
    ([⟨1, 7, 0, 0⟩, ⟨2, 7, 1, 1⟩, ⟨3, 7, 2, 0⟩] : List TrajectorySample) ≠ [] ∧
    ((createTrajectoryFollowingPath
        [⟨1, 7, 0, 0⟩, ⟨2, 7, 1, 1⟩, ⟨3, 7, 2, 0⟩]
        [⟨.startKnot 7, 0, 0, none⟩, ⟨.manualKnot 11, 1, 1, some 0⟩,
          ⟨.endKnot 7, 2, 0, none⟩]).Perm
        [⟨.startKnot 7, 0, 0, none⟩, ⟨.manualKnot 11, 1, 1, some 0⟩,
          ⟨.endKnot 7, 2, 0, none⟩] ∧
      (createTrajectoryFollowingPath
        [⟨1, 7, 0, 0⟩, ⟨2, 7, 1, 1⟩, ⟨3, 7, 2, 0⟩]
        [⟨.startKnot 7, 0, 0, none⟩, ⟨.manualKnot 11, 1, 1, some 0⟩,
          ⟨.endKnot 7, 2, 0, none⟩]).Pairwise
        (fun a b => findClosestTrajectoryIndex
            [⟨1, 7, 0, 0⟩, ⟨2, 7, 1, 1⟩, ⟨3, 7, 2, 0⟩] a ≤
          findClosestTrajectoryIndex
            [⟨1, 7, 0, 0⟩, ⟨2, 7, 1, 1⟩, ⟨3, 7, 2, 0⟩] b) ∧
      (∀ k ∈ ([⟨.startKnot 7, 0, 0, none⟩, ⟨.manualKnot 11, 1, 1, some 0⟩,
          ⟨.endKnot 7, 2, 0, none⟩] : List KnotAnnotation),
        NearestSampleIndex [⟨1, 7, 0, 0⟩, ⟨2, 7, 1, 1⟩, ⟨3, 7, 2, 0⟩] k.x k.y
          (findClosestTrajectoryIndex
            [⟨1, 7, 0, 0⟩, ⟨2, 7, 1, 1⟩, ⟨3, 7, 2, 0⟩] k)) ∧
      (∀ relabel : KnotId → KnotId,
        createTrajectoryFollowingPath
            [⟨1, 7, 0, 0⟩, ⟨2, 7, 1, 1⟩, ⟨3, 7, 2, 0⟩]
            (([⟨.startKnot 7, 0, 0, none⟩, ⟨.manualKnot 11, 1, 1, some 0⟩,
              ⟨.endKnot 7, 2, 0, none⟩] : List KnotAnnotation).map
              (relabelKnot relabel)) =
          (createTrajectoryFollowingPath
            [⟨1, 7, 0, 0⟩, ⟨2, 7, 1, 1⟩, ⟨3, 7, 2, 0⟩]
            [⟨.startKnot 7, 0, 0, none⟩, ⟨.manualKnot 11, 1, 1, some 0⟩,
              ⟨.endKnot 7, 2, 0, none⟩]).map (relabelKnot relabel))) :=
  ⟨List.cons_ne_nil _ _,
    C1_nearest_sample_index_projection
      [⟨1, 7, 0, 0⟩, ⟨2, 7, 1, 1⟩, ⟨3, 7, 2, 0⟩]
      [⟨.startKnot 7, 0, 0, none⟩, ⟨.manualKnot 11, 1, 1, some 0⟩,
        ⟨.endKnot 7, 2, 0, none⟩]
      (List.cons_ne_nil _ _)⟩

/-- C5 counterexample: with a single sample, both knots resolve to nearest
index 0 (a tie), the stable sort keeps input order, and permuting the input
permutes the output: Algorithm A as implemented is not order-invariant. -/
theorem C5_counterexample_tied_indices :
    ([⟨.manualKnot 2, 1, 1, none⟩, ⟨.manualKnot 1, 0, 0, none⟩] :
        List KnotAnnotation).Perm
      [⟨.manualKnot 1, 0, 0, none⟩, ⟨.manualKnot 2, 1, 1, none⟩] ∧
    createTrajectoryFollowingPath [⟨1, 7, 0, 0⟩]
        [⟨.manualKnot 2, 1, 1, none⟩, ⟨.manualKnot 1, 0, 0, none⟩] ≠
      createTrajectoryFollowingPath [⟨1, 7, 0, 0⟩]
        [⟨.manualKnot 1, 0, 0, none⟩, ⟨.manualKnot 2, 1, 1, none⟩] := by
  constructor
  · exact List.Perm.swap _ _ _
  · have h1 : createTrajectoryFollowingPath [⟨1, 7, 0, 0⟩]
        [⟨.manualKnot 2, 1, 1, none⟩, ⟨.manualKnot 1, 0, 0, none⟩] =
        [⟨.manualKnot 2, 1, 1, none⟩, ⟨.manualKnot 1, 0, 0, none⟩] := by
      norm_num [createTrajectoryFollowingPath, findClosestTrajectoryIndex,
        closestScan, sampleDist2, stableSort, ordInsert]
    have h2 : createTrajectoryFollowingPath [⟨1, 7, 0, 0⟩]
        [⟨.manualKnot 1, 0, 0, none⟩, ⟨.manualKnot 2, 1, 1, none⟩] =
        [⟨.manualKnot 1, 0, 0, none⟩, ⟨.manualKnot 2, 1, 1, none⟩] := by
      norm_num [createTrajectoryFollowingPath, findClosestTrajectoryIndex,
        closestScan, sampleDist2, stableSort, ordInsert]
    rw [h1, h2]
    simp

/-- C5 amended: Algorithm A is order-invariant on every knot set whose
resolved nearest-sample indices are pairwise distinct (with tied indices the
stable sort keeps input order, so only tied knots can move). -/
theorem C5_order_invariance_distinct_indices
    (trajectoryData : List TrajectorySample)
    (knots knots' : List KnotAnnotation) (hperm : knots'.Perm knots)
    (hkeys : (knots.map (findClosestTrajectoryIndex trajectoryData)).Nodup) :
    createTrajectoryFollowingPath trajectoryData knots' =
      createTrajectoryFollowingPath trajectoryData knots := by
  have hinj : ∀ a ∈ knots, ∀ b ∈ knots,
      findClosestTrajectoryIndex trajectoryData a =
        findClosestTrajectoryIndex trajectoryData b → a = b :=
    List.inj_on_of_nodup_map hkeys
  have hout : (createTrajectoryFollowingPath trajectoryData knots').Perm
      (createTrajectoryFollowingPath trajectoryData knots) :=
    ((createTrajectoryFollowingPath_perm trajectoryData knots').trans
      hperm).trans (createTrajectoryFollowingPath_perm trajectoryData knots).symm
  refine perm_pairwise_eq
    (fun a b => decide (findClosestTrajectoryIndex trajectoryData a ≤
      findClosestTrajectoryIndex trajectoryData b)) _ _ hout
    ((createTrajectoryFollowingPath_pairwise trajectoryData knots').imp
      (fun h => by simpa using h))
    ((createTrajectoryFollowingPath_pairwise trajectoryData knots).imp
      (fun h => by simpa using h))
    ?_
  intro a ha b hb hab hba
  have ha' : a ∈ knots :=
    hperm.subset ((createTrajectoryFollowingPath_perm _ knots').subset ha)
  have hb' : b ∈ knots :=
    hperm.subset ((createTrajectoryFollowingPath_perm _ knots').subset hb)
  simp only [decide_eq_true_eq] at hab hba
  exact hinj a ha' b hb' (le_antisymm hab hba)

/-- C5 amended witness: three knots with distinct resolved indices 0, 1, 2;
resolving the reversed list equals resolving the original. -/
theorem C5_order_invariance_distinct_indices_witness :
    ([⟨.endKnot 7, 2, 0, none⟩, ⟨.manualKnot 11, 1, 1, some 0⟩,
        ⟨.startKnot 7, 0, 0, none⟩] : List KnotAnnotation).Perm
      [⟨.startKnot 7, 0, 0, none⟩, ⟨.manualKnot 11, 1, 1, some 0⟩,
        ⟨.endKnot 7, 2, 0, none⟩] ∧
    (([⟨.startKnot 7, 0, 0, none⟩, ⟨.manualKnot 11, 1, 1, some 0⟩,
        ⟨.endKnot 7, 2, 0, none⟩] : List KnotAnnotation).map
      (findClosestTrajectoryIndex
        [⟨1, 7, 0, 0⟩, ⟨2, 7, 1, 1⟩, ⟨3, 7, 2, 0⟩])).Nodup ∧
    createTrajectoryFollowingPath [⟨1, 7, 0, 0⟩, ⟨2, 7, 1, 1⟩, ⟨3, 7, 2, 0⟩]
        [⟨.endKnot 7, 2, 0, none⟩, ⟨.manualKnot 11, 1, 1, some 0⟩,
          ⟨.startKnot 7, 0, 0, none⟩] =
      createTrajectoryFollowingPath [⟨1, 7, 0, 0⟩, ⟨2, 7, 1, 1⟩, ⟨3, 7, 2, 0⟩]
        [⟨.startKnot 7, 0, 0, none⟩, ⟨.manualKnot 11, 1, 1, some 0⟩,
          ⟨.endKnot 7, 2, 0, none⟩] := by
  have hperm : ([⟨.endKnot 7, 2, 0, none⟩, ⟨.manualKnot 11, 1, 1, some 0⟩,
      ⟨.startKnot 7, 0, 0, none⟩] : List KnotAnnotation).Perm
      [⟨.startKnot 7, 0, 0, none⟩, ⟨.manualKnot 11, 1, 1, some 0⟩,
        ⟨.endKnot 7, 2, 0, none⟩] := by decide
  have hmap : (([⟨.startKnot 7, 0, 0, none⟩, ⟨.manualKnot 11, 1, 1, some 0⟩,
      ⟨.endKnot 7, 2, 0, none⟩] : List KnotAnnotation).map
      (findClosestTrajectoryIndex
        [⟨1, 7, 0, 0⟩, ⟨2, 7, 1, 1⟩, ⟨3, 7, 2, 0⟩])) = [0, 1, 2] := by
    norm_num [findClosestTrajectoryIndex, closestScan, sampleDist2]
  have hkeys : (([⟨.startKnot 7, 0, 0, none⟩, ⟨.manualKnot 11, 1, 1, some 0⟩,
      ⟨.endKnot 7, 2, 0, none⟩] : List KnotAnnotation).map
      (findClosestTrajectoryIndex
        [⟨1, 7, 0, 0⟩, ⟨2, 7, 1, 1⟩, ⟨3, 7, 2, 0⟩])).Nodup := by
    rw [hmap]
    decide
  exact ⟨hperm, hkeys,
    C5_order_invariance_distinct_indices _ _ _ hperm hkeys⟩

/-- C2 witness: two knots; the chain starts at the minimal-`x` knot `(0,0)`
and greedily appends the remaining knot. -/
theorem C2_greedy_nearest_neighbor_chaining_witness :
    ([⟨2, 0, 1⟩, ⟨0, 0, 0⟩] : List ProcessedKnot) ≠ [] ∧
    ((createTrajectoryOrderedPath [⟨2, 0, 1⟩, ⟨0, 0, 0⟩]).Perm
        [⟨2, 0, 1⟩, ⟨0, 0, 0⟩] ∧
      ∃ i k, ([⟨2, 0, 1⟩, ⟨0, 0, 0⟩] : List ProcessedKnot)[i]? = some k ∧
        (∀ (j : Nat) (b : ProcessedKnot),
          ([⟨2, 0, 1⟩, ⟨0, 0, 0⟩] : List ProcessedKnot)[j]? = some b →
          k.x ≤ b.x) ∧
        (∀ j < i, ∀ (b : ProcessedKnot),
          ([⟨2, 0, 1⟩, ⟨0, 0, 0⟩] : List ProcessedKnot)[j]? = some b →
          k.x < b.x) ∧
        (createTrajectoryOrderedPath [⟨2, 0, 1⟩, ⟨0, 0, 0⟩]).head? = some k ∧
        GreedyFrom k (([⟨2, 0, 1⟩, ⟨0, 0, 0⟩] : List ProcessedKnot).eraseIdx i)
          (createTrajectoryOrderedPath [⟨2, 0, 1⟩, ⟨0, 0, 0⟩]).tail) :=
  ⟨List.cons_ne_nil _ _,
    C2_greedy_nearest_neighbor_chaining [⟨2, 0, 1⟩, ⟨0, 0, 0⟩]
      (List.cons_ne_nil _ _)⟩

/-! ## The annotation session state and the Knot Set Manager operations

The live annotation page (`PlaceKnots`) keeps React state
`trajectories : TrajectoryWithKnots[]` and a single session-wide JavaScript
`Map` `knotPlacementOrder : Map<string, number>` shared by all trajectories.
A JavaScript `Map` iterates in insertion order, `set` of an existing key
updates the entry in place, and `delete` removes it; it is embedded as an
association list with exactly those operations.  The mutating event handlers
close over `currentTrajectoryIndex`; here the target index is passed
explicitly. -/

/-- The session-wide `knotPlacementOrder` map. -/
abbrev OrderMap := List (KnotId × Nat)

/-- JavaScript `map.get(k)` (first entry with the key). -/
def mapGet (m : OrderMap) (k : KnotId) : Option Nat :=
  (m.find? (fun e => e.1 == k)).map (fun e => e.2)

/-- JavaScript `map.set(k, v)`: update in place if present, append if new. -/
def mapSet (m : OrderMap) (k : KnotId) (v : Nat) : OrderMap :=
  if m.any (fun e => e.1 == k) then
    m.map (fun e => if e.1 == k then (k, v) else e)
  else m ++ [(k, v)]

/-- JavaScript `map.delete(k)`. -/
def mapDelete (m : OrderMap) (k : KnotId) : OrderMap :=
  m.filter (fun e => !(e.1 == k))

/-- One trajectory's annotation state (source interface
`TrajectoryWithKnots`). -/
structure TrajectoryWithKnots where
  trackId : Int
  data : List TrajectorySample
  knots : List KnotAnnotation
  selectedKnotCount : Nat
deriving DecidableEq, Repr

/-- The mutable page state relevant to the Knot Set Manager: the trajectory
array and the shared placement-order map. -/
structure SessionState where
  trajectories : List TrajectoryWithKnots
  knotPlacementOrder : OrderMap
deriving DecidableEq, Repr

/-- `prev.map((traj, index) => index === idx ? f(traj) : traj)`. -/
def mapAtIdx (f : α → α) : Nat → List α → List α
  | _, [] => []
  | 0, t :: ts => f t :: ts
  | n + 1, t :: ts => t :: mapAtIdx f n ts

/-- Warnings surfaced by `alert(...)` in the handlers, named after the spec
error taxonomy. -/
inductive KnotWarning where
  | knotBudgetExceeded
  | protectedKnot
deriving DecidableEq, Repr

/-- The source's `handleChartClick` (placeKnot): no-op with a budget warning
when the trajectory already holds `selectedKnotCount + 2` knots; otherwise
the new Manual knot's rank is the number of manual entries in the
session-wide `knotPlacementOrder` map, the map gains the new id, and the knot
is appended to the target trajectory's knot array.  `stamp` stands for the
source's `Date.now()` in `knot-${Date.now()}`. -/
def handleChartClick (idx : Nat) (clickX clickY : ℚ) (stamp : Nat)
    (s : SessionState) : SessionState × Option KnotWarning :=
  match s.trajectories[idx]? with
  | none => (s, none)
  | some traj =>
    if traj.knots.length ≥ traj.selectedKnotCount + 2 then
      (s, some .knotBudgetExceeded)
    else
      let nextRank :=
        (s.knotPlacementOrder.filter (fun e => e.1.isManual)).length
      let newKnot : KnotAnnotation :=
        ⟨.manualKnot stamp, clickX, clickY, some nextRank⟩
      ({ trajectories := mapAtIdx
          (fun t => { t with knots := t.knots ++ [newKnot] }) idx
          s.trajectories,
         knotPlacementOrder :=
          mapSet s.knotPlacementOrder (.manualKnot stamp) nextRank }, none)

/-- Shared re-ranking step of `removeKnot` / `removeLastKnot`: after a map
deletion, list the remaining manual entries in map order, stable-sort them
ascending by rank, and write back ranks `0, 1, 2, ...` in that order. -/
def rerankManual (m : OrderMap) : OrderMap :=
  ((stableSort (fun a b => decide (a.2 ≤ b.2))
      (m.filter (fun e => e.1.isManual))).enum).foldl
    (fun acc p => mapSet acc p.2.1 p.1) m

/-- The source's `removeKnot`: refuses (warning) to remove a Start/End knot;
otherwise deletes the id from the shared map, re-ranks all remaining manual
entries to `0..n-1` by ascending old rank, and filters the knot out of the
target trajectory's array. -/
def removeKnot (idx : Nat) (knotId : KnotId) (s : SessionState) :
    SessionState × Option KnotWarning :=
  if knotId.isStart || knotId.isEnd then
    (s, some .protectedKnot)
  else
    ({ trajectories := mapAtIdx
        (fun t => { t with
          knots := t.knots.filter (fun k => !(k.id == knotId)) }) idx
        s.trajectories,
       knotPlacementOrder :=
        rerankManual (mapDelete s.knotPlacementOrder knotId) }, none)

/-- The source's `removeLastKnot`: find the last knot of the target
trajectory that is not Start/End; if none, no-op; otherwise delete it from
the map (with the same re-ranking as `removeKnot`) and from the array. -/
def removeLastKnot (idx : Nat) (s : SessionState) : SessionState :=
  match s.trajectories[idx]? with
  | none => s
  | some traj =>
    match (traj.knots.filter (fun k => k.id.isManual)).getLast? with
    | none => s
    | some lastK =>
      { trajectories := mapAtIdx
          (fun t => { t with
            knots := t.knots.filter (fun k => !(k.id == lastK.id)) }) idx
          s.trajectories,
        knotPlacementOrder :=
          rerankManual (mapDelete s.knotPlacementOrder lastK.id) }

/-- The source's `handleKnotCountChange` (setKnotBudget): split the target
trajectory's knots into manual / first Start / first End; when the manual
count exceeds the new budget, keep the first `count` manual knots, delete the
dropped ids from the map and write ranks `0..count-1` onto the kept ones;
always rebuild the knot array as manual-then-Start-then-End and store the new
budget. -/
def handleKnotCountChange (idx : Nat) (count : Nat) (s : SessionState) :
    SessionState :=
  match s.trajectories[idx]? with
  | none => s
  | some traj =>
    let manualKnots := traj.knots.filter (fun k => k.id.isManual)
    let startKnot := traj.knots.find? (fun k => k.id.isStart)
    let endKnot := traj.knots.find? (fun k => k.id.isEnd)
    let adjustedManualKnots :=
      if count < manualKnots.length then manualKnots.take count
      else manualKnots
    let newMap :=
      if count < manualKnots.length then
        (adjustedManualKnots.enum).foldl (fun acc p => mapSet acc p.2.id p.1)
          ((manualKnots.drop count).foldl
            (fun acc k => mapDelete acc k.id) s.knotPlacementOrder)
      else s.knotPlacementOrder
    let preservedKnots :=
      adjustedManualKnots ++ startKnot.toList ++ endKnot.toList
    { trajectories := mapAtIdx
        (fun t =>
          { t with selectedKnotCount := count, knots := preservedKnots })
        idx s.trajectories,
      knotPlacementOrder := newMap }

/-- One trajectory loader step inside the source's
`loadRandomTrajectories`: sort the served samples ascending by `sceneId`
(stable), then create the Start knot from the first and the End knot from
the last sorted sample.  With an empty sample list the source dereferences
`undefined` and the load fails; this is the spec's `EmptyTrajectory`,
embedded as `none`.  The source's
`const sortedData = data.sort((a, b) => a.sceneId - b.sceneId)` (stable,
ascending by `sceneId`) is the named helper `sortSamples`. -/
def sortSamples (data : List TrajectorySample) : List TrajectorySample :=
  stableSort (fun a b => decide (a.sceneId ≤ b.sceneId)) data

def loadTrajectory (trackId : Int) (data : List TrajectorySample) :
    Option TrajectoryWithKnots :=
  match (sortSamples data).head?, (sortSamples data).getLast? with
  | some startPoint, some endPoint =>
    some { trackId := trackId, data := sortSamples data,
           knots := [⟨.startKnot trackId, startPoint.localX,
                       startPoint.localY, none⟩,
                     ⟨.endKnot trackId, endPoint.localX,
                       endPoint.localY, none⟩],
           selectedKnotCount := 3 }
  | _, _ => none

/-- One knot of the wire format (source DTO `KnotData`). -/
structure KnotData where
  x : ℚ
  y : ℚ
  relativeOrder : Nat
deriving DecidableEq, Repr

/-- One trajectory of the wire format (source DTO `TrajectoryAnnotation`). -/
structure TrajectoryAnnotation where
  trackId : Int
  totalKnots : Nat
  knots : List KnotData
deriving DecidableEq, Repr

/-- Per-trajectory body of the source's `collectKnotPlacementData`: manual
knots (each re-keyed to `knotPlacementOrder.get(id) || 0`) stable-sorted
ascending by rank, then the first Start knot, then the first End knot, with
`relativeOrder` assigned `index + 1` over the concatenation and coordinates
taken verbatim. -/
def collectTrajectory (orderMap : OrderMap) (trajectory : TrajectoryWithKnots) :
    TrajectoryAnnotation :=
  let manualKnots := trajectory.knots.filter (fun k => k.id.isManual)
  let startKnot := trajectory.knots.find? (fun k => k.id.isStart)
  let endKnot := trajectory.knots.find? (fun k => k.id.isEnd)
  let sortedManualKnots :=
    (stableSort (fun a b => decide (a.2 ≤ b.2))
      (manualKnots.map (fun k => (k, (mapGet orderMap k.id).getD 0)))).map
      (fun p => p.1)
  let finalKnots := sortedManualKnots ++ startKnot.toList ++ endKnot.toList
  { trackId := trajectory.trackId,
    totalKnots := trajectory.knots.length,
    knots := finalKnots.enum.map (fun p => ⟨p.2.x, p.2.y, p.1 + 1⟩) }

/-- The source's `collectKnotPlacementData` over the whole session. -/
def collectKnotPlacementData (s : SessionState) : List TrajectoryAnnotation :=
  s.trajectories.map (collectTrajectory s.knotPlacementOrder)

/-! ## C9: initialize picks the min / max sceneId samples -/

theorem pairwise_head (R : α → α → Prop) (l : List α) (hp : l.Pairwise R)
    (a : α) (ha : l.head? = some a) : ∀ q ∈ l, q = a ∨ R a q := by
  match l, ha with
  | x :: t, ha =>
    simp only [List.head?_cons, Option.some.injEq] at ha
    subst ha
    rcases hp with _ | ⟨hx, _⟩
    intro q hq
    rcases List.mem_cons.mp hq with rfl | hq'
    · exact Or.inl rfl
    · exact Or.inr (hx q hq')

theorem pairwise_getLast (R : α → α → Prop) :
    ∀ (l : List α), l.Pairwise R → ∀ (a : α), l.getLast? = some a →
    ∀ q ∈ l, q = a ∨ R q a
  | [], _, a, ha => by simp at ha
  | [x], _, a, ha => by
    simp only [List.getLast?_singleton, Option.some.injEq] at ha
    subst ha
    intro q hq
    rcases List.mem_singleton.mp hq with rfl
    exact Or.inl rfl
  | x :: y :: t, hp, a, ha => by
    rcases hp with _ | ⟨hx, hp'⟩
    have ha' : (y :: t).getLast? = some a := by
      rw [List.getLast?_cons_cons] at ha
      exact ha
    intro q hq
    rcases List.mem_cons.mp hq with rfl | hq'
    · have hmem : a ∈ y :: t :=
        List.mem_of_mem_getLast? (by rw [ha']; exact rfl)
      exact Or.inr (hx a hmem)
    · exact pairwise_getLast R (y :: t) hp' a ha' q hq'

/-- C9: `initialize` (the per-track body of `loadRandomTrajectories`)
succeeds exactly on nonempty sample lists (the spec's `EmptyTrajectory`
failure otherwise), and on success the Start knot carries the coordinates of
a minimal-`sceneId` sample and the End knot those of a maximal-`sceneId`
sample; when `sceneId`s are distinct this start/end choice is invariant
under permuting the input samples. -/
theorem C9_initialize_min_max_scene_id (trackId : Int) :
    (∀ data : List TrajectorySample,
      (loadTrajectory trackId data).isSome ↔ data ≠ []) ∧
    (∀ (data : List TrajectorySample) (t : TrajectoryWithKnots),
      loadTrajectory trackId data = some t →
      ∃ ps pe, ps ∈ data ∧ pe ∈ data ∧
        (∀ q ∈ data, ps.sceneId ≤ q.sceneId) ∧
        (∀ q ∈ data, q.sceneId ≤ pe.sceneId) ∧
        t.knots = [⟨.startKnot trackId, ps.localX, ps.localY, none⟩,
                   ⟨.endKnot trackId, pe.localX, pe.localY, none⟩]) ∧
    (∀ (data data' : List TrajectorySample)
      (t t' : TrajectoryWithKnots),
      (data.map (fun p => p.sceneId)).Nodup → data'.Perm data →
      loadTrajectory trackId data = some t →
      loadTrajectory trackId data' = some t' →
      t'.knots = t.knots) := by
  have hle : ∀ a b : TrajectorySample,
      (decide (a.sceneId ≤ b.sceneId)) = true ∨
        (decide (b.sceneId ≤ a.sceneId)) = true := by
    intro a b
    rcases Int.le_total a.sceneId b.sceneId with h | h
    · exact Or.inl (by simpa using h)
    · exact Or.inr (by simpa using h)
  have htrans : ∀ a b c : TrajectorySample,
      (decide (a.sceneId ≤ b.sceneId)) = true →
        (decide (b.sceneId ≤ c.sceneId)) = true →
        (decide (a.sceneId ≤ c.sceneId)) = true := by
    intro a b c hab hbc
    simp only [decide_eq_true_eq] at *
    exact le_trans hab hbc
  have key : ∀ (data : List TrajectorySample) (t : TrajectoryWithKnots),
      loadTrajectory trackId data = some t →
      ∃ ps pe, ps ∈ data ∧ pe ∈ data ∧
        (∀ q ∈ data, ps.sceneId ≤ q.sceneId) ∧
        (∀ q ∈ data, q.sceneId ≤ pe.sceneId) ∧
        t.knots = [⟨.startKnot trackId, ps.localX, ps.localY, none⟩,
                   ⟨.endKnot trackId, pe.localX, pe.localY, none⟩] := by
    intro data t ht
    unfold loadTrajectory at ht
    set sorted := sortSamples data with hsorted
    have hperm : sorted.Perm data := stableSort_perm _ data
    have hpair : List.Pairwise
        (fun a b : TrajectorySample =>
          decide (a.sceneId ≤ b.sceneId) = true) sorted :=
      stableSort_pairwise _ hle htrans data
    match hh : sorted.head?, hl : sorted.getLast? with
    | some ps, some pe =>
      rw [hh, hl] at ht
      simp only [Option.some.injEq] at ht
      subst ht
      refine ⟨ps, pe, hperm.subset (by
          match sorted, hh with
          | x :: t, hh =>
            simp only [List.head?_cons, Option.some.injEq] at hh
            subst hh
            exact List.mem_cons_self _ _),
        hperm.subset (List.mem_of_mem_getLast? (by rw [hl]; exact rfl)),
        ?_, ?_, rfl⟩
      · intro q hq
        have hq' : q ∈ sorted := hperm.mem_iff.mpr hq
        rcases pairwise_head _ sorted hpair ps hh q hq' with rfl | hps
        · exact le_refl _
        · simpa using hps
      · intro q hq
        have hq' : q ∈ sorted := hperm.mem_iff.mpr hq
        rcases pairwise_getLast _ sorted hpair pe hl q hq' with rfl | hpe
        · exact le_refl _
        · simpa using hpe
    | some ps, none =>
      rw [List.getLast?_eq_head?_reverse] at hl
      rw [List.head?_eq_none_iff] at hl
      rw [List.reverse_eq_nil_iff] at hl
      rw [hl] at hh
      exact Option.noConfusion hh
    | none, _ =>
      rw [hh] at ht
      exact Option.noConfusion ht
  refine ⟨?_, key, ?_⟩
  · intro data
    constructor
    · intro hsome hdata
      subst hdata
      simp [loadTrajectory, sortSamples, stableSort] at hsome
    · intro hdata
      unfold loadTrajectory
      set sorted := sortSamples data
      have hne : sorted ≠ [] := by
        intro h
        have hl : sorted.length = data.length :=
          (stableSort_perm
            (fun a b : TrajectorySample => decide (a.sceneId ≤ b.sceneId))
            data).length_eq
        rw [h] at hl
        exact hdata (List.eq_nil_of_length_eq_zero hl.symm)
      match hs : sorted, hne with
      | x :: t, _ =>
        have : (x :: t).getLast? = some ((x :: t).getLast (by simp)) :=
          List.getLast?_eq_getLast _ _
        rw [this]
        simp
  · intro data data' t t' hnodup hperm ht ht'
    obtain ⟨ps, pe, hpsm, hpem, hpsmin, hpemax, hk⟩ := key data t ht
    obtain ⟨ps', pe', hpsm', hpem', hpsmin', hpemax', hk'⟩ := key data' t' ht'
    have hpsm'' : ps' ∈ data := hperm.subset hpsm'
    have hpem'' : pe' ∈ data := hperm.subset hpem'
    have hps : ps' = ps := by
      refine List.inj_on_of_nodup_map hnodup hpsm'' hpsm ?_
      exact le_antisymm (hpsmin' ps (hperm.mem_iff.mpr hpsm))
        (hpsmin ps' hpsm'')
    have hpe : pe' = pe := by
      refine List.inj_on_of_nodup_map hnodup hpem'' hpem ?_
      exact le_antisymm (hpemax pe' hpem'')
        (hpemax' pe (hperm.mem_iff.mpr hpem))
    rw [hk, hk', hps, hpe]

/-! ## Toolbox: JavaScript Map semantics and per-index array update -/

/-- Keys of an association-list map, in map (insertion) order. -/
def keysOf (m : OrderMap) : List KnotId := m.map (fun e => e.1)

theorem find?_setUpdate_self (k : KnotId) (v : Nat) :
    ∀ (m : OrderMap), m.any (fun e => e.1 == k) = true →
    (m.map (fun e => if e.1 == k then (k, v) else e)).find?
      (fun e => e.1 == k) = some (k, v)
  | [], h => by simp at h
  | e :: es, h => by
    rw [List.map_cons]
    by_cases he : e.1 = k
    · rw [if_pos (by simpa using he)]
      rw [List.find?_cons_of_pos _ (by simp)]
    · rw [if_neg (by simpa using he)]
      rw [List.find?_cons_of_neg _ (by simpa using he)]
      refine find?_setUpdate_self k v es ?_
      simp only [List.any_cons] at h
      rcases Bool.or_eq_true_iff.mp h with h' | h'
      · exact absurd (by simpa using h') he
      · exact h'

theorem find?_setUpdate_ne (k k' : KnotId) (v : Nat) (hne : k' ≠ k) :
    ∀ (m : OrderMap),
    (m.map (fun e => if e.1 == k then (k, v) else e)).find?
      (fun e => e.1 == k') = m.find? (fun e => e.1 == k')
  | [] => by simp
  | e :: es => by
    rw [List.map_cons]
    by_cases he : e.1 = k
    · rw [if_pos (by simpa using he)]
      rw [List.find?_cons_of_neg _ (by
        simp only [beq_iff_eq]
        exact fun h => hne h.symm)]
      rw [List.find?_cons_of_neg _ (by
        simp only [beq_iff_eq, he]
        exact fun h => hne h.symm)]
      exact find?_setUpdate_ne k k' v hne es
    · rw [if_neg (by simpa using he)]
      by_cases he' : e.1 = k'
      · rw [List.find?_cons_of_pos _ (by simpa using he'),
          List.find?_cons_of_pos _ (by simpa using he')]
      · rw [List.find?_cons_of_neg _ (by simpa using he'),
          List.find?_cons_of_neg _ (by simpa using he')]
        exact find?_setUpdate_ne k k' v hne es

theorem mapGet_mapSet_self (m : OrderMap) (k : KnotId) (v : Nat) :
    mapGet (mapSet m k v) k = some v := by
  unfold mapSet
  by_cases h : m.any (fun e => e.1 == k) = true
  · rw [if_pos h]
    unfold mapGet
    rw [find?_setUpdate_self k v m h]
    rfl
  · rw [if_neg h]
    unfold mapGet
    rw [List.find?_append]
    have h1 : m.find? (fun e => e.1 == k) = none := by
      rw [List.find?_eq_none]
      intro e he hek
      exact h (List.any_eq_true.mpr ⟨e, he, hek⟩)
    rw [h1, List.find?_cons_of_pos _ (by simp)]
    rfl

theorem mapGet_mapSet_ne (m : OrderMap) (k k' : KnotId) (v : Nat)
    (hne : k' ≠ k) : mapGet (mapSet m k v) k' = mapGet m k' := by
  unfold mapSet
  by_cases h : m.any (fun e => e.1 == k) = true
  · rw [if_pos h]
    unfold mapGet
    rw [find?_setUpdate_ne k k' v hne m]
  · rw [if_neg h]
    unfold mapGet
    rw [List.find?_append]
    have h1 : List.find? (fun e => e.1 == k') [(k, v)] = none := by
      rw [List.find?_eq_none]
      intro e he hek
      rcases List.mem_singleton.mp he with rfl
      have hkk : k = k' := by simpa using hek
      exact hne hkk.symm
    rw [h1, Option.or_none]

theorem mapSet_of_fresh (m : OrderMap) (k : KnotId) (v : Nat)
    (h : ∀ e ∈ m, e.1 ≠ k) : mapSet m k v = m ++ [(k, v)] := by
  unfold mapSet
  have hany : ¬(m.any (fun e => e.1 == k) = true) := by
    intro hany
    obtain ⟨e, he, hek⟩ := List.any_eq_true.mp hany
    exact h e he (by simpa using hek)
  rw [if_neg hany]

theorem keysOf_mapSet_of_any (m : OrderMap) (k : KnotId) (v : Nat)
    (h : m.any (fun e => e.1 == k) = true) :
    keysOf (mapSet m k v) = keysOf m := by
  unfold mapSet keysOf
  rw [if_pos h, List.map_map]
  refine List.map_congr_left ?_
  intro e _
  by_cases he : e.1 = k
  · simp [he]
  · rw [Function.comp_apply, if_neg (by simpa using he)]

theorem mapGet_mapDelete_self (m : OrderMap) (k : KnotId) :
    mapGet (mapDelete m k) k = none := by
  unfold mapGet mapDelete
  have h1 : List.find? (fun e => e.1 == k)
      (List.filter (fun e => !(e.1 == k)) m) = none := by
    rw [List.find?_eq_none]
    intro e he hk
    have h2 := (List.mem_filter.mp he).2
    rw [hk] at h2
    simp at h2
  rw [h1]
  rfl

theorem mapGet_mapDelete_ne (m : OrderMap) (k k' : KnotId) (hne : k' ≠ k) :
    mapGet (mapDelete m k) k' = mapGet m k' := by
  unfold mapGet mapDelete
  induction m with
  | nil => simp
  | cons e es ih =>
    rw [List.filter_cons]
    by_cases hek : e.1 = k
    · rw [if_neg (by simpa using hek)]
      rw [List.find?_cons_of_neg _ (by
        simp only [beq_iff_eq, hek]
        exact fun h => hne h.symm)]
      exact ih
    · rw [if_pos (by simpa using hek)]
      by_cases he' : e.1 = k'
      · rw [List.find?_cons_of_pos _ (by simpa using he'),
          List.find?_cons_of_pos _ (by simpa using he')]
      · rw [List.find?_cons_of_neg _ (by simpa using he'),
          List.find?_cons_of_neg _ (by simpa using he')]
        exact ih

theorem keysOf_mapDelete (m : OrderMap) (k : KnotId) :
    keysOf (mapDelete m k) = (keysOf m).filter (fun k' => !(k' == k)) := by
  unfold keysOf mapDelete
  induction m with
  | nil => simp
  | cons e es ih =>
    rw [List.filter_cons, List.map_cons, List.filter_cons]
    by_cases hek : e.1 = k
    · rw [if_neg (by simpa using hek), if_neg (by simpa using hek), ih]
    · rw [if_pos (by simpa using hek), if_pos (by simpa using hek),
        List.map_cons, ih]

theorem mapAtIdx_getElem?_ne (f : α → α) :
    ∀ (idx j : Nat) (l : List α), j ≠ idx →
    (mapAtIdx f idx l)[j]? = l[j]?
  | _, _, [], _ => by simp [mapAtIdx]
  | 0, 0, t :: ts, hne => absurd rfl hne
  | 0, j + 1, t :: ts, _ => by simp [mapAtIdx]
  | n + 1, 0, t :: ts, _ => by simp [mapAtIdx]
  | n + 1, j + 1, t :: ts, hne => by
    simp only [mapAtIdx, List.getElem?_cons_succ]
    exact mapAtIdx_getElem?_ne f n j ts (fun h => hne (by rw [h]))

theorem mapAtIdx_getElem?_self (f : α → α) :
    ∀ (idx : Nat) (l : List α),
    (mapAtIdx f idx l)[idx]? = (l[idx]?).map f
  | _, [] => by simp [mapAtIdx]
  | 0, t :: ts => by simp [mapAtIdx]
  | n + 1, t :: ts => by
    simp only [mapAtIdx, List.getElem?_cons_succ]
    exact mapAtIdx_getElem?_self f n ts

/-! ## C4: frame effect of the four Knot Set Manager mutations -/

/-- C4 amended: every mutation targeted at trajectory `idx` leaves every
other trajectory's record (knot array, budget, samples) unchanged.  (The
claim's stronger statement including placement ranks fails: the session-wide
`knotPlacementOrder` map is re-ranked across all trajectories by removals,
see the counterexample.) -/
theorem C4_mutations_preserve_other_trajectories (s : SessionState)
    (idx j : Nat) (hne : j ≠ idx) :
    (∀ (x y : ℚ) (stamp : Nat),
      (handleChartClick idx x y stamp s).1.trajectories[j]? =
        s.trajectories[j]?) ∧
    (∀ knotId : KnotId,
      (removeKnot idx knotId s).1.trajectories[j]? = s.trajectories[j]?) ∧
    ((removeLastKnot idx s).trajectories[j]? = s.trajectories[j]?) ∧
    (∀ count : Nat,
      (handleKnotCountChange idx count s).trajectories[j]? =
        s.trajectories[j]?) := by
  refine ⟨?_, ?_, ?_, ?_⟩
  · intro x y stamp
    unfold handleChartClick
    split
    · rfl
    · split
      · rfl
      · exact mapAtIdx_getElem?_ne _ idx j s.trajectories hne
  · intro knotId
    unfold removeKnot
    split
    · rfl
    · exact mapAtIdx_getElem?_ne _ idx j s.trajectories hne
  · unfold removeLastKnot
    split
    · rfl
    · split
      · rfl
      · exact mapAtIdx_getElem?_ne _ idx j s.trajectories hne
  · intro count
    unfold handleKnotCountChange
    split
    · rfl
    · exact mapAtIdx_getElem?_ne _ idx j s.trajectories hne

/-- The reachable two-trajectory state used to refute C4 as stated: both
trajectories are loaded from one-sample tracks, a knot is placed on
trajectory 0 (session rank 0) and then one on trajectory 1 (session rank 1). -/
def c4State : SessionState :=
  (handleChartClick 1 0 0 102
    ((handleChartClick 0 0 0 101
      { trajectories :=
          [(loadTrajectory 1 [⟨1, 1, 0, 0⟩]).getD ⟨0, [], [], 0⟩,
           (loadTrajectory 2 [⟨1, 2, 0, 0⟩]).getD ⟨0, [], [], 0⟩],
        knotPlacementOrder := [] }).1)).1

/-- C4 counterexample: removing trajectory 0's knot leaves trajectory 1's
record unchanged but renumbers trajectory 1's Manual knot's placementRank in
the shared map from 1 to 0 — a cross-trajectory effect. -/
theorem C4_counterexample_cross_trajectory_rerank :
    mapGet c4State.knotPlacementOrder (.manualKnot 102) = some 1 ∧
    (removeKnot 0 (.manualKnot 101) c4State).1.trajectories[1]? =
      c4State.trajectories[1]? ∧
    mapGet (removeKnot 0 (.manualKnot 101) c4State).1.knotPlacementOrder
      (.manualKnot 102) = some 0 := by
  refine ⟨by decide, by decide, by decide⟩

/-! ## C8: the Submission Collector's ordering convention -/

theorem find?_eq_head?_filter (p : α → Bool) (l : List α) :
    l.find? p = (l.filter p).head? := by
  induction l with
  | nil => rfl
  | cons a l ih =>
    by_cases h : p a
    · rw [List.find?_cons_of_pos _ h, List.filter_cons, if_pos h,
        List.head?_cons]
    · rw [List.find?_cons_of_neg _ h, List.filter_cons, if_neg h, ih]

/-- Sorting key-paired elements and projecting back is a permutation. -/
theorem sortByKey_perm (key : α → Nat) (l : List α) :
    ((stableSort (fun a b => decide (a.2 ≤ b.2))
      (l.map (fun x => (x, key x)))).map (fun p => p.1)).Perm l := by
  refine ((stableSort_perm _ _).map _).trans ?_
  rw [List.map_map]
  rw [show ((fun p : α × Nat => p.1) ∘ fun x => (x, key x)) = fun x : α => x
    from rfl]
  rw [show (List.map (fun x : α => x) l) = l from List.map_id l]

/-- Sorting key-paired elements yields a key-ascending sequence. -/
theorem sortByKey_pairwise (key : α → Nat) (l : List α) :
    ((stableSort (fun a b => decide (a.2 ≤ b.2))
      (l.map (fun x => (x, key x)))).map (fun p => p.1)).Pairwise
      (fun a b => key a ≤ key b) := by
  have hsorted := stableSort_pairwise
    (fun a b : α × Nat => decide (a.2 ≤ b.2))
    (fun a b => by
      rcases Nat.le_total a.2 b.2 with h' | h'
      · exact Or.inl (by simpa using h')
      · exact Or.inr (by simpa using h'))
    (fun a b c hab hbc => by
      simp only [decide_eq_true_eq] at *
      exact le_trans hab hbc)
    (l.map (fun x => (x, key x)))
  have hmem : ∀ pr ∈ stableSort (fun a b : α × Nat => decide (a.2 ≤ b.2))
      (l.map (fun x => (x, key x))), pr.2 = key pr.1 := by
    intro pr hpr
    have hpr' : pr ∈ l.map (fun x => (x, key x)) :=
      (stableSort_perm _ _).subset hpr
    obtain ⟨x, _, rfl⟩ := List.mem_map.mp hpr'
    rfl
  rw [List.pairwise_map]
  refine hsorted.imp_of_mem ?_
  intro a b ha hb hab
  have ha2 := hmem a ha
  have hb2 := hmem b hb
  simp only [decide_eq_true_eq] at hab
  rw [ha2, hb2] at hab
  exact hab

theorem relativeOrder_of_enum (l : List KnotAnnotation) :
    (l.enum.map (fun p => (⟨p.2.x, p.2.y, p.1 + 1⟩ : KnotData))).map
      (fun k => k.relativeOrder) = List.range' 1 l.length := by
  rw [List.map_map]
  rw [show ((fun k : KnotData => k.relativeOrder) ∘
      fun p : Nat × KnotAnnotation => (⟨p.2.x, p.2.y, p.1 + 1⟩ : KnotData)) =
    fun p : Nat × KnotAnnotation => p.1 + 1 from rfl]
  have h1 : List.map (fun p : Nat × KnotAnnotation => p.1 + 1) l.enum =
      List.map (fun i => i + 1) (List.map Prod.fst l.enum) := by
    rw [List.map_map]
    rfl
  rw [h1, List.enum_map_fst, List.range'_eq_map_range]
  refine List.map_congr_left ?_
  intro i _
  exact Nat.add_comm i 1

/-- C8: for a trajectory holding exactly one Start and one End knot, the
collector emits some key-ascending permutation of the Manual knots first
(ascending in `knotPlacementOrder` rank), then the Start knot, then the End
knot; `relativeOrder` runs `1, 2, ...` over this concatenation, coordinates
are taken verbatim, and `totalKnots` / `trackId` are copied. -/
theorem C8_collector_manual_start_end_order (m : OrderMap)
    (t : TrajectoryWithKnots) (st en : KnotAnnotation)
    (hstart : t.knots.filter (fun k => k.id.isStart) = [st])
    (hend : t.knots.filter (fun k => k.id.isEnd) = [en]) :
    ∃ ms : List KnotAnnotation,
      ms.Perm (t.knots.filter (fun k => k.id.isManual)) ∧
      ms.Pairwise (fun a b =>
        (mapGet m a.id).getD 0 ≤ (mapGet m b.id).getD 0) ∧
      (collectTrajectory m t).knots =
        (ms ++ [st] ++ [en]).enum.map
          (fun p => (⟨p.2.x, p.2.y, p.1 + 1⟩ : KnotData)) ∧
      (collectTrajectory m t).knots.map (fun k => k.relativeOrder) =
        List.range' 1 ((collectTrajectory m t).knots.length) ∧
      (collectTrajectory m t).totalKnots = t.knots.length ∧
      (collectTrajectory m t).trackId = t.trackId := by
  have hfs : t.knots.find? (fun k => k.id.isStart) = some st := by
    rw [find?_eq_head?_filter, hstart]
    rfl
  have hfe : t.knots.find? (fun k => k.id.isEnd) = some en := by
    rw [find?_eq_head?_filter, hend]
    rfl
  refine ⟨(stableSort (fun a b => decide (a.2 ≤ b.2))
      ((t.knots.filter (fun k => k.id.isManual)).map
        (fun k => (k, (mapGet m k.id).getD 0)))).map (fun p => p.1),
    sortByKey_perm _ _, sortByKey_pairwise _ _, ?_, ?_, rfl, rfl⟩
  · simp only [collectTrajectory, hfs, hfe, Option.toList_some]
  · simp only [collectTrajectory, hfs, hfe, Option.toList_some]
    rw [relativeOrder_of_enum]
    simp

/-- C8 witness data: a session map ranking two Manual knots opposite to
their array order. -/
def c8Map : OrderMap := [(.manualKnot 21, 1), (.manualKnot 20, 0)]

/-- C8 witness data: Start knot. -/
def c8Start : KnotAnnotation := ⟨.startKnot 5, 0, 0, none⟩

/-- C8 witness data: End knot. -/
def c8End : KnotAnnotation := ⟨.endKnot 5, 9, 9, none⟩

/-- C8 witness data: trajectory with Start, End and two Manual knots. -/
def c8Traj : TrajectoryWithKnots :=
  ⟨5, [], [c8Start, c8End, ⟨.manualKnot 21, 1, 1, some 1⟩,
    ⟨.manualKnot 20, 2, 2, some 0⟩], 2⟩

/-- C8 witness: a trajectory whose two Manual knots were placed with ranks
1 and 0 (array order opposite to rank order), plus Start and End knots. -/
theorem C8_collector_manual_start_end_order_witness :
    (c8Traj.knots.filter (fun k => k.id.isStart) = [c8Start]) ∧
    (c8Traj.knots.filter (fun k => k.id.isEnd) = [c8End]) ∧
    ∃ ms : List KnotAnnotation,
      ms.Perm (c8Traj.knots.filter (fun k => k.id.isManual)) ∧
      ms.Pairwise (fun a b =>
        (mapGet c8Map a.id).getD 0 ≤ (mapGet c8Map b.id).getD 0) ∧
      (collectTrajectory c8Map c8Traj).knots =
        (ms ++ [c8Start] ++ [c8End]).enum.map
          (fun p => (⟨p.2.x, p.2.y, p.1 + 1⟩ : KnotData)) ∧
      (collectTrajectory c8Map c8Traj).knots.map (fun k => k.relativeOrder) =
        List.range' 1 ((collectTrajectory c8Map c8Traj).knots.length) ∧
      (collectTrajectory c8Map c8Traj).totalKnots = c8Traj.knots.length ∧
      (collectTrajectory c8Map c8Traj).trackId = c8Traj.trackId :=
  ⟨by decide, by decide,
    C8_collector_manual_start_end_order c8Map c8Traj c8Start c8End
      (by decide) (by decide)⟩

/-! ## C7: removeKnot protection and rank recompaction -/

/-- A key is in the key list iff some entry matches it. -/
theorem any_key_iff_mem_keysOf (m : OrderMap) (k : KnotId) :
    m.any (fun e => e.1 == k) = true ↔ k ∈ keysOf m := by
  rw [List.any_eq_true]
  constructor
  · rintro ⟨e, he, hek⟩
    have : e.1 = k := by simpa using hek
    rw [← this]
    exact List.mem_map.mpr ⟨e, he, rfl⟩
  · intro hk
    obtain ⟨e, he, hek⟩ := List.mem_map.mp hk
    exact ⟨e, he, by simp [hek]⟩

/-- A write-back loop (`forEach((item, index) => map.set(key(item), index))`)
does not change keys it never writes. -/
theorem mapGet_rankWriteback_of_not_mem (keyf : β → KnotId) (k : KnotId) :
    ∀ (items : List β) (n : Nat) (m : OrderMap),
    (∀ b ∈ items, keyf b ≠ k) →
    mapGet ((items.enumFrom n).foldl
      (fun acc p => mapSet acc (keyf p.2) p.1) m) k = mapGet m k
  | [], _, m, _ => rfl
  | b :: bs, n, m, h => by
    rw [List.enumFrom_cons, List.foldl_cons]
    rw [mapGet_rankWriteback_of_not_mem keyf k bs (n + 1) _
      (fun b' hb' => h b' (List.mem_cons_of_mem b hb'))]
    exact mapGet_mapSet_ne m (keyf b) k n (h b (List.mem_cons_self b bs)).symm

/-- A write-back loop over items with distinct keys leaves each written key
at the value `n + position`. -/
theorem mapGet_rankWriteback_at (keyf : β → KnotId) :
    ∀ (items : List β) (n : Nat) (m : OrderMap) (i : Nat) (b : β),
    items[i]? = some b → (items.map keyf).Nodup →
    mapGet ((items.enumFrom n).foldl
      (fun acc p => mapSet acc (keyf p.2) p.1) m) (keyf b) = some (n + i)
  | [], _, _, i, b, hi, _ => by simp at hi
  | f :: bs, n, m, 0, b, hi, hnodup => by
    simp only [List.getElem?_cons_zero, Option.some.injEq] at hi
    subst hi
    rw [List.enumFrom_cons, List.foldl_cons]
    rw [mapGet_rankWriteback_of_not_mem keyf (keyf f) bs (n + 1) _ ?_]
    · rw [mapGet_mapSet_self]
      rw [Nat.add_zero]
    · intro b' hb'
      rcases hnodup with _ | ⟨hf, _⟩
      intro hcontra
      exact hf (keyf b') (List.mem_map.mpr ⟨b', hb', rfl⟩) hcontra.symm
  | f :: bs, n, m, i + 1, b, hi, hnodup => by
    simp only [List.getElem?_cons_succ] at hi
    rw [List.enumFrom_cons, List.foldl_cons]
    rcases hnodup with _ | ⟨hf, hnodup'⟩
    rw [mapGet_rankWriteback_at keyf bs (n + 1) _ i b hi hnodup']
    rw [Nat.add_assoc, Nat.add_comm 1 i]

/-- A write-back loop that only writes existing keys preserves the key
sequence. -/
theorem keysOf_rankWriteback (keyf : β → KnotId) :
    ∀ (items : List β) (n : Nat) (m : OrderMap),
    (∀ b ∈ items, keyf b ∈ keysOf m) →
    keysOf ((items.enumFrom n).foldl
      (fun acc p => mapSet acc (keyf p.2) p.1) m) = keysOf m
  | [], _, _, _ => rfl
  | b :: bs, n, m, h => by
    rw [List.enumFrom_cons, List.foldl_cons]
    have hkeys : keysOf (mapSet m (keyf b) n) = keysOf m :=
      keysOf_mapSet_of_any m (keyf b) n
        ((any_key_iff_mem_keysOf m (keyf b)).mpr
          (h b (List.mem_cons_self b bs)))
    rw [keysOf_rankWriteback keyf bs (n + 1) (mapSet m (keyf b) n)
      (fun b' hb' => by
        rw [hkeys]
        exact h b' (List.mem_cons_of_mem b hb')), hkeys]

/-- The re-ranking step shared by `removeKnot` / `removeLastKnot`: the
remaining manual entries, listed ascending by old rank (stably), receive the
new ranks `0, 1, 2, ...`; non-manual keys and the key sequence are
untouched. -/
theorem rerankManual_spec (m : OrderMap) (hnodup : (keysOf m).Nodup) :
    ∃ es : List (KnotId × Nat),
      es.Perm (m.filter (fun e => e.1.isManual)) ∧
      es.Pairwise (fun a b => a.2 ≤ b.2) ∧
      (∀ (i : Nat) (e : KnotId × Nat), es[i]? = some e →
        mapGet (rerankManual m) e.1 = some i) ∧
      (∀ k : KnotId, k.isManual = false →
        mapGet (rerankManual m) k = mapGet m k) ∧
      keysOf (rerankManual m) = keysOf m := by
  set es := stableSort (fun a b => decide (a.2 ≤ b.2))
    (m.filter (fun e => e.1.isManual)) with hes
  have hperm : es.Perm (m.filter (fun e => e.1.isManual)) :=
    stableSort_perm _ _
  have hmanual : ∀ e ∈ es, e.1.isManual = true := by
    intro e he
    exact (List.mem_filter.mp (hperm.subset he)).2
  have hmem : ∀ e ∈ es, e ∈ m := by
    intro e he
    exact (List.mem_filter.mp (hperm.subset he)).1
  have hkeysnodup : (es.map (fun e => e.1)).Nodup := by
    refine (hperm.map (fun e => e.1)).nodup_iff.mpr ?_
    exact List.Nodup.sublist
      ((List.filter_sublist m).map (fun e => e.1)) hnodup
  refine ⟨es, hperm, ?_, ?_, ?_, ?_⟩
  · have := stableSort_pairwise
      (fun a b : KnotId × Nat => decide (a.2 ≤ b.2))
      (fun a b => by
        rcases Nat.le_total a.2 b.2 with h' | h'
        · exact Or.inl (by simpa using h')
        · exact Or.inr (by simpa using h'))
      (fun a b c hab hbc => by
        simp only [decide_eq_true_eq] at *
        exact le_trans hab hbc)
      (m.filter (fun e => e.1.isManual))
    rw [← hes] at this
    exact this.imp (fun h => by simpa using h)
  · intro i e hi
    have := mapGet_rankWriteback_at (fun e : KnotId × Nat => e.1) es 0 m i e hi hkeysnodup
    rw [Nat.zero_add] at this
    exact this
  · intro k hk
    refine mapGet_rankWriteback_of_not_mem (fun e : KnotId × Nat => e.1) k es 0 m ?_
    intro e he hcontra
    have hcontra' : e.1 = k := hcontra
    have hm := hmanual e he
    rw [hcontra'] at hm
    rw [hm] at hk
    exact Bool.noConfusion hk
  · refine keysOf_rankWriteback (fun e : KnotId × Nat => e.1) es 0 m ?_
    intro e he
    exact List.mem_map.mpr ⟨e, hmem e he, rfl⟩

/-- C7: `removeKnot` refuses Start/End knots with the `ProtectedKnot`
warning and leaves the state unchanged; for a Manual knot id it removes
exactly that knot from the target trajectory's array (given the id occurs
there once) and re-ranks the remaining manual map entries to `0..n-1`,
ascending in their previous ranks. -/
theorem C7_removeKnot_protected_and_recompact (s : SessionState)
    (idx : Nat) (knotId : KnotId)
    (hkeys : (keysOf s.knotPlacementOrder).Nodup) :
    ((knotId.isStart || knotId.isEnd) = true →
      removeKnot idx knotId s = (s, some KnotWarning.protectedKnot)) ∧
    ((knotId.isStart || knotId.isEnd) = false →
      (∀ (t : TrajectoryWithKnots) (pre post : List KnotAnnotation)
        (k : KnotAnnotation),
        s.trajectories[idx]? = some t →
        t.knots = pre ++ k :: post → k.id = knotId →
        (∀ k' ∈ pre, k'.id ≠ knotId) → (∀ k' ∈ post, k'.id ≠ knotId) →
        (removeKnot idx knotId s).1.trajectories[idx]? =
          some { t with knots := pre ++ post }) ∧
      (∃ es : List (KnotId × Nat),
        es.Perm ((mapDelete s.knotPlacementOrder knotId).filter
          (fun e => e.1.isManual)) ∧
        es.Pairwise (fun a b => a.2 ≤ b.2) ∧
        (∀ (i : Nat) (e : KnotId × Nat), es[i]? = some e →
          mapGet (removeKnot idx knotId s).1.knotPlacementOrder e.1 =
            some i))) := by
  constructor
  · intro hprot
    unfold removeKnot
    rw [if_pos hprot]
  · intro hprot
    have hprot' : ¬((knotId.isStart || knotId.isEnd) = true) := by
      rw [hprot]
      exact Bool.noConfusion
    constructor
    · intro t pre post k ht hdecomp hkid hpre hpost
      have hfilter : t.knots.filter (fun k' => !(k'.id == knotId)) =
          pre ++ post := by
        rw [hdecomp, List.filter_append, List.filter_cons]
        rw [if_neg (by simp [hkid])]
        rw [List.filter_eq_self.mpr (fun a ha => by simpa using hpre a ha),
          List.filter_eq_self.mpr (fun a ha => by simpa using hpost a ha)]
      unfold removeKnot
      rw [if_neg hprot']
      simp only [mapAtIdx_getElem?_self, ht, Option.map_some', hfilter]
    · have hdelkeys : (keysOf (mapDelete s.knotPlacementOrder knotId)).Nodup := by
        rw [keysOf_mapDelete]
        exact hkeys.filter _
      obtain ⟨es, hperm, hpair, hat, -, -⟩ :=
        rerankManual_spec (mapDelete s.knotPlacementOrder knotId) hdelkeys
      refine ⟨es, hperm, hpair, ?_⟩
      intro i e hi
      unfold removeKnot
      rw [if_neg hprot']
      exact hat i e hi

/-- C7 witness state: one trajectory with Start, End and two Manual knots,
map ranks 0 and 1. -/
def c7State : SessionState :=
  ⟨[⟨1, [], [⟨.startKnot 1, 0, 0, none⟩, ⟨.endKnot 1, 5, 5, none⟩,
      ⟨.manualKnot 31, 1, 1, some 0⟩, ⟨.manualKnot 32, 2, 2, some 1⟩], 3⟩],
    [(.manualKnot 31, 0), (.manualKnot 32, 1)]⟩

/-- C7 witness: the hypothesis (distinct map keys) holds for `c7State` and
the theorem applies there. -/
theorem C7_removeKnot_protected_and_recompact_witness :
    (keysOf c7State.knotPlacementOrder).Nodup ∧
    ((((KnotId.manualKnot 31).isStart || (KnotId.manualKnot 31).isEnd) = true →
      removeKnot 0 (.manualKnot 31) c7State =
        (c7State, some KnotWarning.protectedKnot)) ∧
    ((((KnotId.manualKnot 31).isStart || (KnotId.manualKnot 31).isEnd) = false) →
      (∀ (t : TrajectoryWithKnots) (pre post : List KnotAnnotation)
        (k : KnotAnnotation),
        c7State.trajectories[0]? = some t →
        t.knots = pre ++ k :: post → k.id = .manualKnot 31 →
        (∀ k' ∈ pre, k'.id ≠ KnotId.manualKnot 31) →
        (∀ k' ∈ post, k'.id ≠ KnotId.manualKnot 31) →
        (removeKnot 0 (.manualKnot 31) c7State).1.trajectories[0]? =
          some { t with knots := pre ++ post }) ∧
      (∃ es : List (KnotId × Nat),
        es.Perm ((mapDelete c7State.knotPlacementOrder
          (.manualKnot 31)).filter (fun e => e.1.isManual)) ∧
        es.Pairwise (fun a b => a.2 ≤ b.2) ∧
        (∀ (i : Nat) (e : KnotId × Nat), es[i]? = some e →
          mapGet (removeKnot 0 (.manualKnot 31)
            c7State).1.knotPlacementOrder e.1 = some i)))) :=
  ⟨by decide,
    C7_removeKnot_protected_and_recompact c7State 0 (.manualKnot 31)
      (by decide)⟩

/-! ## C6: setKnotBudget truncation and preservation -/

/-- Splitting a filter over a disjunction of disjoint predicates is a
permutation. -/
theorem filter_or_perm (p q : α → Bool) :
    ∀ (l : List α), (∀ a ∈ l, ¬(p a = true ∧ q a = true)) →
    (l.filter (fun a => p a || q a)).Perm (l.filter p ++ l.filter q)
  | [], _ => by simp
  | a :: l, hdisj => by
    have ih := filter_or_perm p q l
      (fun b hb => hdisj b (List.mem_cons_of_mem a hb))
    by_cases hp : p a = true
    · have hq : q a = false := by
        cases hqv : q a
        · rfl
        · exact absurd ⟨hp, hqv⟩ (hdisj a (List.mem_cons_self a l))
      rw [List.filter_cons (p := fun a => p a || q a), if_pos (by simp [hp]),
        List.filter_cons (p := p), if_pos hp,
        List.filter_cons (p := q), if_neg (by simp [hq]), List.cons_append]
      exact ih.cons a
    · have hp' : p a = false := by
        cases hpv : p a
        · rfl
        · exact absurd hpv hp
      by_cases hq : q a = true
      · rw [List.filter_cons (p := fun a => p a || q a),
          if_pos (by simp [hq]), List.filter_cons (p := p),
          if_neg (by simp [hp']), List.filter_cons (p := q), if_pos hq]
        exact (ih.cons a).trans List.perm_middle.symm
      · have hq' : q a = false := by
          cases hqv : q a
          · rfl
          · exact absurd hqv hq
        rw [List.filter_cons (p := fun a => p a || q a),
          if_neg (by simp [hp', hq']), List.filter_cons (p := p),
          if_neg (by simp [hp']), List.filter_cons (p := q),
          if_neg (by simp [hq'])]
        exact ih

/-- No knot id is both Start and End. -/
theorem KnotId.not_isStart_and_isEnd (id : KnotId) :
    ¬(id.isStart = true ∧ id.isEnd = true) := by
  cases id <;> simp [KnotId.isStart, KnotId.isEnd]

/-- The complement of Manual is Start-or-End. -/
theorem not_isManual_eq (id : KnotId) :
    (!id.isManual) = (id.isStart || id.isEnd) := by
  cases id <;> rfl

/-- A trajectory's knot list with a single Start and a single End knot is a
permutation of manual-knots ++ Start ++ End. -/
theorem knots_partition_perm (l : List KnotAnnotation)
    (st en : KnotAnnotation)
    (hstart : l.filter (fun k => k.id.isStart) = [st])
    (hend : l.filter (fun k => k.id.isEnd) = [en]) :
    (l.filter (fun k => k.id.isManual) ++ [st] ++ [en]).Perm l := by
  have p1 : (l.filter (fun k => k.id.isManual) ++
      l.filter (fun k => !(k.id.isManual))).Perm l :=
    List.filter_append_perm _ l
  have p2 : l.filter (fun k => !(k.id.isManual)) =
      l.filter (fun k => k.id.isStart || k.id.isEnd) :=
    List.filter_congr (fun k _ => not_isManual_eq k.id)
  have p3 : (l.filter (fun k => k.id.isStart || k.id.isEnd)).Perm
      (l.filter (fun k => k.id.isStart) ++ l.filter (fun k => k.id.isEnd)) :=
    filter_or_perm _ _ l (fun k _ => KnotId.not_isStart_and_isEnd k.id)
  rw [hstart, hend] at p3
  refine List.Perm.trans ?_ p1
  rw [List.append_assoc]
  exact (List.Perm.append_left _ (by rw [p2]; exact p3.symm))

/-- C6 amended: the truncation keeps an array *prefix*, so it keeps the
lowest-ranked knots only on trajectories whose manual knots are strictly
ascending in placement rank in array order (as in single-trajectory
sessions; reachable multi-trajectory states violate this and then the
truncation drops a lower-ranked knot, see the counterexample).  Under that
ascent hypothesis, with a single Start and End knot, a budget decrease
below the manual count keeps exactly the first (= lowest ranked) `count`
manual knots ahead of Start and End, every kept knot outranks every
dropped knot, and kept knots are re-ranked to `0..count-1` in order; a
budget at or above the manual count only rewrites the budget: the knot set
is preserved (as a permutation: the array is rebuilt as
manual-then-Start-then-End) and the rank map is untouched. -/
theorem C6_setKnotBudget_truncation_and_preservation (s : SessionState)
    (idx count : Nat) (t : TrajectoryWithKnots) (st en : KnotAnnotation)
    (ht : s.trajectories[idx]? = some t)
    (hstart : t.knots.filter (fun k => k.id.isStart) = [st])
    (hend : t.knots.filter (fun k => k.id.isEnd) = [en])
    (hasc : (t.knots.filter (fun k => k.id.isManual)).Pairwise
      (fun a b => (mapGet s.knotPlacementOrder a.id).getD 0 <
        (mapGet s.knotPlacementOrder b.id).getD 0)) :
    (count < (t.knots.filter (fun k => k.id.isManual)).length →
      (handleKnotCountChange idx count s).trajectories[idx]? =
        some ⟨t.trackId, t.data,
          (t.knots.filter (fun k => k.id.isManual)).take count ++
            [st] ++ [en], count⟩ ∧
      (∀ a ∈ (t.knots.filter (fun k => k.id.isManual)).take count,
        ∀ b ∈ (t.knots.filter (fun k => k.id.isManual)).drop count,
        (mapGet s.knotPlacementOrder a.id).getD 0 <
          (mapGet s.knotPlacementOrder b.id).getD 0) ∧
      (∀ (i : Nat) (k : KnotAnnotation),
        ((t.knots.filter (fun k => k.id.isManual)).take count)[i]? =
          some k →
        mapGet (handleKnotCountChange idx count s).knotPlacementOrder
          k.id = some i)) ∧
    (¬(count < (t.knots.filter (fun k => k.id.isManual)).length) →
      (handleKnotCountChange idx count s).trajectories[idx]? =
        some ⟨t.trackId, t.data,
          t.knots.filter (fun k => k.id.isManual) ++ [st] ++ [en], count⟩ ∧
      ((t.knots.filter (fun k => k.id.isManual)) ++ [st] ++ [en]).Perm
        t.knots ∧
      (handleKnotCountChange idx count s).knotPlacementOrder =
        s.knotPlacementOrder) := by
  have hfs : t.knots.find? (fun k => k.id.isStart) = some st := by
    rw [find?_eq_head?_filter, hstart]
    rfl
  have hfe : t.knots.find? (fun k => k.id.isEnd) = some en := by
    rw [find?_eq_head?_filter, hend]
    rfl
  have hids : ((t.knots.filter (fun k => k.id.isManual)).map
      (fun k => k.id)).Nodup := by
    have hne : (t.knots.filter (fun k => k.id.isManual)).Pairwise
        (fun a b => a.id ≠ b.id) := by
      refine hasc.imp ?_
      intro a b h heq
      rw [heq] at h
      exact lt_irrefl _ h
    exact List.pairwise_map.mpr hne
  constructor
  · intro hcount
    refine ⟨?_, ?_, ?_⟩
    · simp only [handleKnotCountChange, ht, hfs, hfe, Option.toList_some]
      rw [if_pos hcount]
      rw [mapAtIdx_getElem?_self, ht, Option.map_some']
    · intro a ha b hb
      have hasc' := hasc
      rw [← List.take_append_drop count
        (t.knots.filter (fun k => k.id.isManual))] at hasc'
      exact (List.pairwise_append.mp hasc').2.2 a ha b hb
    · intro i k hik
      simp only [handleKnotCountChange, ht]
      rw [if_pos hcount, if_pos hcount]
      have htake : (((t.knots.filter (fun k => k.id.isManual)).take
          count).map (fun k => k.id)).Nodup :=
        List.Nodup.sublist ((List.take_sublist _ _).map _) hids
      have hres := mapGet_rankWriteback_at (fun k : KnotAnnotation => k.id)
        ((t.knots.filter (fun k => k.id.isManual)).take count) 0
        ((((t.knots.filter (fun k => k.id.isManual)).drop count)).foldl
          (fun acc k => mapDelete acc k.id) s.knotPlacementOrder) i k
        hik htake
      rw [Nat.zero_add] at hres
      exact hres
  · intro hcount
    refine ⟨?_, knots_partition_perm t.knots st en hstart hend, ?_⟩
    · simp only [handleKnotCountChange, ht, hfs, hfe, Option.toList_some]
      rw [if_neg hcount]
      rw [mapAtIdx_getElem?_self, ht, Option.map_some']
    · simp only [handleKnotCountChange, ht]
      rw [if_neg hcount]

/-- C6 witness data: Start knot. -/
def c6Start : KnotAnnotation := ⟨.startKnot 1, 0, 0, none⟩

/-- C6 witness data: End knot. -/
def c6End : KnotAnnotation := ⟨.endKnot 1, 9, 9, none⟩

/-- C6 witness data: trajectory with budget 5 and five manual knots of
ranks 0-4. -/
def c6Traj : TrajectoryWithKnots :=
  ⟨1, [], [c6Start, c6End,
    ⟨.manualKnot 41, 1, 1, some 0⟩, ⟨.manualKnot 42, 2, 2, some 1⟩,
    ⟨.manualKnot 43, 3, 3, some 2⟩, ⟨.manualKnot 44, 4, 4, some 3⟩,
    ⟨.manualKnot 45, 5, 5, some 4⟩], 5⟩

/-- C6 witness data: the session state around `c6Traj`. -/
def c6State : SessionState :=
  ⟨[c6Traj],
   [(.manualKnot 41, 0), (.manualKnot 42, 1), (.manualKnot 43, 2),
    (.manualKnot 44, 3), (.manualKnot 45, 4)]⟩

/-- C6 witness: the spec §8 scenario - budget reduced from 5 to 3 with five
ranked Manual knots. -/
theorem C6_setKnotBudget_truncation_and_preservation_witness :
    (c6State.trajectories[0]? = some c6Traj) ∧
    (c6Traj.knots.filter (fun k => k.id.isStart) = [c6Start]) ∧
    (c6Traj.knots.filter (fun k => k.id.isEnd) = [c6End]) ∧
    ((c6Traj.knots.filter (fun k => k.id.isManual)).Pairwise
      (fun a b => (mapGet c6State.knotPlacementOrder a.id).getD 0 <
        (mapGet c6State.knotPlacementOrder b.id).getD 0)) ∧
    ((3 < (c6Traj.knots.filter (fun k => k.id.isManual)).length →
      (handleKnotCountChange 0 3 c6State).trajectories[0]? =
        some ⟨c6Traj.trackId, c6Traj.data,
          (c6Traj.knots.filter (fun k => k.id.isManual)).take 3 ++
            [c6Start] ++ [c6End], 3⟩ ∧
      (∀ a ∈ (c6Traj.knots.filter (fun k => k.id.isManual)).take 3,
        ∀ b ∈ (c6Traj.knots.filter (fun k => k.id.isManual)).drop 3,
        (mapGet c6State.knotPlacementOrder a.id).getD 0 <
          (mapGet c6State.knotPlacementOrder b.id).getD 0) ∧
      (∀ (i : Nat) (k : KnotAnnotation),
        ((c6Traj.knots.filter (fun k => k.id.isManual)).take 3)[i]? =
          some k →
        mapGet (handleKnotCountChange 0 3 c6State).knotPlacementOrder
          k.id = some i)) ∧
    (¬(3 < (c6Traj.knots.filter (fun k => k.id.isManual)).length) →
      (handleKnotCountChange 0 3 c6State).trajectories[0]? =
        some ⟨c6Traj.trackId, c6Traj.data,
          c6Traj.knots.filter (fun k => k.id.isManual) ++
            [c6Start] ++ [c6End], 3⟩ ∧
      ((c6Traj.knots.filter (fun k => k.id.isManual)) ++
        [c6Start] ++ [c6End]).Perm c6Traj.knots ∧
      (handleKnotCountChange 0 3 c6State).knotPlacementOrder =
        c6State.knotPlacementOrder)) :=
  ⟨by decide, by decide, by decide, by decide,
    C6_setKnotBudget_truncation_and_preservation c6State 0 3 c6Traj
      c6Start c6End (by decide) (by decide) (by decide) (by decide)⟩

/-- C4 witness: on the concrete two-trajectory state, mutations aimed at
trajectory 0 leave trajectory 1's record unchanged. -/
theorem C4_mutations_preserve_other_trajectories_witness :
    (1 ≠ 0) ∧
    ((∀ (x y : ℚ) (stamp : Nat),
      (handleChartClick 0 x y stamp c4State).1.trajectories[1]? =
        c4State.trajectories[1]?) ∧
    (∀ knotId : KnotId,
      (removeKnot 0 knotId c4State).1.trajectories[1]? =
        c4State.trajectories[1]?) ∧
    ((removeLastKnot 0 c4State).trajectories[1]? =
      c4State.trajectories[1]?) ∧
    (∀ count : Nat,
      (handleKnotCountChange 0 count c4State).trajectories[1]? =
        c4State.trajectories[1]?)) :=
  ⟨by decide, C4_mutations_preserve_other_trajectories c4State 0 1 (by decide)⟩

/-! ## C3: placement ranks under sequences of placeKnot calls -/

/-- One `handleChartClick` invocation: target trajectory index, click
coordinates, and the `Date.now()` stamp. -/
structure PlaceCall where
  idx : Nat
  x : ℚ
  y : ℚ
  stamp : Nat
deriving DecidableEq, Repr

/-- Run a sequence of placeKnot calls (rejected ones are no-ops, as in the
source). -/
def runPlaceCalls (calls : List PlaceCall) (s : SessionState) : SessionState :=
  calls.foldl (fun s c => (handleChartClick c.idx c.x c.y c.stamp s).1) s

/-- `handleChartClick` either leaves the shared map unchanged (missing
trajectory or budget refusal) or appends the new manual id with rank equal
to the count of manual entries. -/
theorem handleChartClick_map_effect (idx : Nat) (x y : ℚ) (stamp : Nat)
    (s : SessionState) :
    (handleChartClick idx x y stamp s).1.knotPlacementOrder =
      s.knotPlacementOrder ∨
    (handleChartClick idx x y stamp s).1.knotPlacementOrder =
      mapSet s.knotPlacementOrder (.manualKnot stamp)
        ((s.knotPlacementOrder.filter (fun e => e.1.isManual)).length) := by
  unfold handleChartClick
  split
  · exact Or.inl rfl
  · split
    · exact Or.inl rfl
    · exact Or.inr rfl

theorem runPlaceCalls_inv :
    ∀ (calls : List PlaceCall) (s : SessionState),
    (s.knotPlacementOrder.map (fun e => e.2) =
      List.range s.knotPlacementOrder.length) →
    (∀ e ∈ s.knotPlacementOrder, e.1.isManual = true) →
    (∀ c ∈ calls, ∀ e ∈ s.knotPlacementOrder,
      e.1 ≠ KnotId.manualKnot c.stamp) →
    ((calls.map (fun c => c.stamp)).Nodup) →
    ((runPlaceCalls calls s).knotPlacementOrder.map (fun e => e.2) =
      List.range (runPlaceCalls calls s).knotPlacementOrder.length) ∧
    (∀ e ∈ (runPlaceCalls calls s).knotPlacementOrder, e.1.isManual = true)
  | [], s, hvals, hman, _, _ => ⟨hvals, hman⟩
  | c :: calls, s, hvals, hman, hfresh, hnodup => by
    have hstep := handleChartClick_map_effect c.idx c.x c.y c.stamp s
    set s' := (handleChartClick c.idx c.x c.y c.stamp s).1 with hs'
    have hrun : runPlaceCalls (c :: calls) s = runPlaceCalls calls s' := rfl
    rw [hrun]
    rcases hnodup with _ | ⟨hcstamp, hnodup'⟩
    rcases hstep with heq | heq
    · refine runPlaceCalls_inv calls s' (by rw [heq]; exact hvals)
        (by rw [heq]; exact hman) ?_ hnodup'
      intro c' hc' e he
      rw [heq] at he
      exact hfresh c' (List.mem_cons_of_mem c hc') e he
    · have hsetfresh : ∀ e ∈ s.knotPlacementOrder,
          e.1 ≠ KnotId.manualKnot c.stamp :=
        fun e he => hfresh c (List.mem_cons_self c calls) e he
      have happend : s'.knotPlacementOrder =
          s.knotPlacementOrder ++
            [(KnotId.manualKnot c.stamp,
              (s.knotPlacementOrder.filter (fun e => e.1.isManual)).length)] := by
        rw [heq]
        exact mapSet_of_fresh _ _ _ hsetfresh
      have hfilter : s.knotPlacementOrder.filter (fun e => e.1.isManual) =
          s.knotPlacementOrder :=
        List.filter_eq_self.mpr (fun e he => hman e he)
      refine runPlaceCalls_inv calls s' ?_ ?_ ?_ hnodup'
      · rw [happend, hfilter]
        rw [List.map_append, List.length_append]
        simp only [List.map_cons, List.map_nil, List.length_cons,
          List.length_nil]
        rw [hvals]
        have hlenmap : s.knotPlacementOrder.length =
            (s.knotPlacementOrder.map (fun e => e.2)).length := by
          rw [List.length_map]
        rw [List.range_succ]
      · intro e he
        rw [happend] at he
        rcases List.mem_append.mp he with he' | he'
        · exact hman e he'
        · rcases List.mem_singleton.mp he' with rfl
          rfl
      · intro c' hc' e he
        rw [happend] at he
        rcases List.mem_append.mp he with he' | he'
        · exact hfresh c' (List.mem_cons_of_mem c hc') e he'
        · rcases List.mem_singleton.mp he' with rfl
          intro hcontra
          have : c.stamp = c'.stamp := by
            injection hcontra
          exact hcstamp c'.stamp
            (List.mem_map.mpr ⟨c', hc', rfl⟩) this

/-- C3 amended: placement ranks are session-global, not per-trajectory.
After any sequence of (possibly budget-refused) placeKnot calls with fresh
distinct stamps, starting from a freshly loaded session (empty map), the
placementRank values of all manual knots across the whole session are
exactly 0..N-1 in map order; and each accepted placeKnot assigns rank equal
to the number of manual entries in the shared session map (not the target
trajectory's own manual count). -/
theorem C3_placement_ranks_are_session_global (s₀ : SessionState)
    (calls : List PlaceCall)
    (hmap₀ : s₀.knotPlacementOrder = [])
    (hstamps : (calls.map (fun c => c.stamp)).Nodup) :
    ((runPlaceCalls calls s₀).knotPlacementOrder.map (fun e => e.2) =
      List.range (runPlaceCalls calls s₀).knotPlacementOrder.length) ∧
    (∀ e ∈ (runPlaceCalls calls s₀).knotPlacementOrder,
      e.1.isManual = true) ∧
    (∀ (idx : Nat) (x y : ℚ) (stamp : Nat) (s : SessionState)
      (t : TrajectoryWithKnots),
      s.trajectories[idx]? = some t →
      t.knots.length < t.selectedKnotCount + 2 →
      mapGet (handleChartClick idx x y stamp s).1.knotPlacementOrder
        (.manualKnot stamp) =
        some ((s.knotPlacementOrder.filter
          (fun e => e.1.isManual)).length) ∧
      (handleChartClick idx x y stamp s).2 = none) := by
  obtain ⟨h1, h2⟩ := runPlaceCalls_inv calls s₀
    (by rw [hmap₀]; rfl) (by rw [hmap₀]; intro e he; simp at he)
    (by rw [hmap₀]; intro c _ e he; simp at he) hstamps
  refine ⟨h1, h2, ?_⟩
  intro idx x y stamp s t ht hroom
  have hguard : ¬(t.knots.length ≥ t.selectedKnotCount + 2) :=
    Nat.not_le.mpr hroom
  unfold handleChartClick
  rw [ht]
  simp only
  rw [if_neg hguard]
  exact ⟨mapGet_mapSet_self _ _ _, rfl⟩

/-- C3 witness: two placeKnot calls with distinct stamps on an
initially-empty session; the resulting ranks are 0, 1 in order. -/
theorem C3_placement_ranks_are_session_global_witness :
    ((⟨[⟨3, [], [], 4⟩], []⟩ :
        SessionState).knotPlacementOrder = []) ∧
    ((([⟨0, 0, 0, 11⟩, ⟨0, 1, 1, 12⟩] : List PlaceCall).map
      (fun c => c.stamp)).Nodup) ∧
    (((runPlaceCalls [⟨0, 0, 0, 11⟩, ⟨0, 1, 1, 12⟩]
        ⟨[⟨3, [], [], 4⟩], []⟩).knotPlacementOrder.map (fun e => e.2) =
      List.range (runPlaceCalls [⟨0, 0, 0, 11⟩, ⟨0, 1, 1, 12⟩]
        ⟨[⟨3, [], [], 4⟩], []⟩).knotPlacementOrder.length) ∧
    (∀ e ∈ (runPlaceCalls [⟨0, 0, 0, 11⟩, ⟨0, 1, 1, 12⟩]
        ⟨[⟨3, [], [], 4⟩], []⟩).knotPlacementOrder,
      e.1.isManual = true) ∧
    (∀ (idx : Nat) (x y : ℚ) (stamp : Nat) (s : SessionState)
      (t : TrajectoryWithKnots),
      s.trajectories[idx]? = some t →
      t.knots.length < t.selectedKnotCount + 2 →
      mapGet (handleChartClick idx x y stamp s).1.knotPlacementOrder
        (.manualKnot stamp) =
        some ((s.knotPlacementOrder.filter
          (fun e => e.1.isManual)).length) ∧
      (handleChartClick idx x y stamp s).2 = none)) :=
  ⟨rfl, by decide,
    C3_placement_ranks_are_session_global ⟨[⟨3, [], [], 4⟩], []⟩
      [⟨0, 0, 0, 11⟩, ⟨0, 1, 1, 12⟩] rfl (by decide)⟩

/-- The reachable state used to refute C3 as stated: two loaded
trajectories; a knot is placed on trajectory 0, then one on trajectory 1. -/
def c3Init : SessionState :=
  { trajectories :=
      [(loadTrajectory 1 [⟨1, 1, 0, 0⟩]).getD ⟨0, [], [], 0⟩,
       (loadTrajectory 2 [⟨1, 2, 0, 0⟩]).getD ⟨0, [], [], 0⟩],
    knotPlacementOrder := [] }

/-- C3 counterexample: after placing on trajectory 0 and then on
trajectory 1, trajectory 1 holds one Manual knot whose placementRank is 1
(the session-wide count), not 0 (its own prior count, which was 0): its
rank set is {1}, not {0}. -/
theorem C3_counterexample_interleaved_trajectories :
    ((((handleChartClick 0 0 0 101 c3Init).1).trajectories[1]?).map
      (fun t => (t.knots.filter (fun k => k.id.isManual)).length) =
        some 0) ∧
    (((handleChartClick 1 0 0 102
        ((handleChartClick 0 0 0 101 c3Init).1)).1.trajectories[1]?).map
      (fun t => (t.knots.filter (fun k => k.id.isManual)).map
        (fun k => mapGet (handleChartClick 1 0 0 102
          ((handleChartClick 0 0 0 101 c3Init).1)).1.knotPlacementOrder
          k.id)) = some [some 1]) := by
  refine ⟨by decide, by decide⟩

/-! ## C10: array order vs placement order -/

/-- The four Knot Set Manager mutations, as dispatched by the UI. -/
inductive AnnotationOp where
  | place (x y : ℚ) (stamp : Nat)
  | remove (knotId : KnotId)
  | removeLast
  | setBudget (count : Nat)
deriving DecidableEq, Repr

/-- Apply one mutation to the session, targeting trajectory `idx`. -/
def applyOp (idx : Nat) (s : SessionState) : AnnotationOp → SessionState
  | .place x y stamp => (handleChartClick idx x y stamp s).1
  | .remove knotId => (removeKnot idx knotId s).1
  | .removeLast => removeLastKnot idx s
  | .setBudget count => handleKnotCountChange idx count s

/-- Run a sequence of mutations targeting one trajectory. -/
def runOps (idx : Nat) (ops : List AnnotationOp) (s : SessionState) :
    SessionState :=
  ops.foldl (applyOp idx) s

/-- Manual knots of trajectory `idx`, in array order. -/
def manualOf (s : SessionState) (idx : Nat) : List KnotAnnotation :=
  ((s.trajectories[idx]?).map
    (fun t => t.knots.filter (fun k => k.id.isManual))).getD []

/-- The id-to-position map determined by a knot list. -/
def enumRanks (l : List KnotAnnotation) : OrderMap :=
  (l.map (fun k => k.id)).enum.map (fun p => (p.2, p.1))

/-- Single-trajectory invariant: the shared placement map lists exactly the
target trajectory's manual knots in array order, ranked by array position,
with distinct ids. -/
def SingleTrajInv (idx : Nat) (s : SessionState) : Prop :=
  s.knotPlacementOrder = enumRanks (manualOf s idx) ∧
  ((manualOf s idx).map (fun k => k.id)).Nodup

theorem manualOf_eq_some (s : SessionState) (idx : Nat)
    (t : TrajectoryWithKnots) (h : s.trajectories[idx]? = some t) :
    manualOf s idx = t.knots.filter (fun k => k.id.isManual) := by
  simp [manualOf, h]

theorem manualOf_eq_none (s : SessionState) (idx : Nat)
    (h : s.trajectories[idx]? = none) : manualOf s idx = [] := by
  simp [manualOf, h]

theorem keysOf_enumRanks (l : List KnotAnnotation) :
    keysOf (enumRanks l) = l.map (fun k => k.id) := by
  unfold keysOf enumRanks
  rw [List.map_map]
  rw [show ((fun e : KnotId × Nat => e.1) ∘
      fun p : Nat × KnotId => (p.2, p.1)) =
    (Prod.snd : Nat × KnotId → KnotId) from rfl]
  exact List.enum_map_snd _

theorem enumRanks_length (l : List KnotAnnotation) :
    (enumRanks l).length = l.length := by
  unfold enumRanks
  rw [List.length_map, List.enum_length, List.length_map]

theorem enumRanks_append_singleton (l : List KnotAnnotation)
    (k : KnotAnnotation) :
    enumRanks (l ++ [k]) = enumRanks l ++ [(k.id, l.length)] := by
  unfold enumRanks
  rw [List.map_append, List.enum_append, List.map_append]
  congr 1
  simp

theorem mem_enumRanks_key (l : List KnotAnnotation) (e : KnotId × Nat)
    (he : e ∈ enumRanks l) : e.1 ∈ l.map (fun k => k.id) := by
  have : e.1 ∈ keysOf (enumRanks l) := List.mem_map.mpr ⟨e, he, rfl⟩
  rwa [keysOf_enumRanks] at this

theorem isManual_of_mem_manualOf (s : SessionState) (idx : Nat)
    (k : KnotAnnotation) (hk : k ∈ manualOf s idx) :
    k.id.isManual = true := by
  unfold manualOf at hk
  cases h : s.trajectories[idx]? with
  | none => rw [h] at hk; simp at hk
  | some t =>
    rw [h] at hk
    simp only [Option.map_some', Option.getD_some] at hk
    exact (List.mem_filter.mp hk).2

/-- Start knots are not Manual. -/
theorem isManual_false_of_isStart (id : KnotId) (h : id.isStart = true) :
    id.isManual = false := by
  cases id <;> simp_all [KnotId.isStart, KnotId.isManual, KnotId.isEnd]

/-- End knots are not Manual. -/
theorem isManual_false_of_isEnd (id : KnotId) (h : id.isEnd = true) :
    id.isManual = false := by
  cases id <;> simp_all [KnotId.isEnd, KnotId.isManual, KnotId.isStart]

theorem enumFrom_pairwise_fst_lt (l : List α) :
    ∀ (n : Nat), (List.enumFrom n l).Pairwise (fun a b => a.1 < b.1) := by
  induction l with
  | nil => intro n; simp
  | cons a l ih =>
    intro n
    rw [List.enumFrom_cons]
    refine List.Pairwise.cons ?_ (ih (n + 1))
    intro p hp
    have := List.mem_enumFrom hp
    omega

/-- `map.set` on the unique occurrence of a key rewrites that entry in
place. -/
theorem mapSet_update_unique (pre rest : OrderMap) (k : KnotId) (v n : Nat)
    (hpre : ∀ e ∈ pre, e.1 ≠ k) (hrest : ∀ e ∈ rest, e.1 ≠ k) :
    mapSet (pre ++ (k, v) :: rest) k n = pre ++ (k, n) :: rest := by
  unfold mapSet
  rw [if_pos (List.any_eq_true.mpr
    ⟨(k, v), by simp, by simp⟩)]
  rw [List.map_append, List.map_cons]
  congr 1
  · calc List.map (fun e => if (e.1 == k) = true then (k, n) else e) pre
        = List.map (fun e => e) pre :=
          List.map_congr_left
            (fun e he => by rw [if_neg (by simpa using hpre e he)])
      _ = pre := List.map_id' pre
  · rw [if_pos (by simp)]
    congr 1
    calc List.map (fun e => if (e.1 == k) = true then (k, n) else e) rest
        = List.map (fun e => e) rest :=
          List.map_congr_left
            (fun e he => by rw [if_neg (by simpa using hrest e he)])
      _ = rest := List.map_id' rest

/-- A rank write-back loop applied to the very map whose entries (by key)
it enumerates rewrites each entry's value to its position. -/
theorem foldSelf_general (keyf : β → KnotId) :
    ∀ (items : List β) (pre suf : OrderMap),
    items.map keyf = suf.map (fun e => e.1) →
    ((pre ++ suf).map (fun e => e.1)).Nodup →
    (items.enumFrom pre.length).foldl
      (fun acc p => mapSet acc (keyf p.2) p.1) (pre ++ suf) =
      pre ++ ((suf.map (fun e => e.1)).enumFrom pre.length).map
        (fun p => (p.2, p.1))
  | [], pre, suf, hkeys, _ => by
    have hsuf : suf = [] := by
      have := congrArg List.length hkeys
      simp only [List.length_map, List.length_nil] at this
      exact List.eq_nil_of_length_eq_zero this.symm
    subst hsuf
    simp
  | b :: items, pre, suf, hkeys, hnodup => by
    match suf, hkeys with
    | e :: suf', hkeys =>
      simp only [List.map_cons, List.cons.injEq] at hkeys
      obtain ⟨hkey, hkeys'⟩ := hkeys
      have hb : (keyf b, e.2) = e := by
        rw [hkey]
      have hnodup' := hnodup
      rw [List.map_append, List.map_cons] at hnodup'
      rw [List.nodup_append] at hnodup'
      obtain ⟨hnpre, hncons, hdisj⟩ := hnodup'
      rcases hncons with _ | ⟨hnotin, hnsuf'⟩
      have hpre : ∀ e' ∈ pre, e'.1 ≠ keyf b := by
        intro e' he' hcontra
        exact hdisj (List.mem_map.mpr ⟨e', he', hcontra⟩)
          (by rw [← hkey]; exact List.mem_cons_self _ _)
      have hrest : ∀ e' ∈ suf', e'.1 ≠ keyf b := by
        intro e' he' hcontra
        rw [← hkey] at hnotin
        exact hnotin e'.1 (List.mem_map.mpr ⟨e', he', rfl⟩) hcontra.symm
      rw [List.enumFrom_cons, List.foldl_cons]
      have hstep : mapSet (pre ++ e :: suf') (keyf b) pre.length =
          pre ++ (keyf b, pre.length) :: suf' := by
        rw [← hb]
        exact mapSet_update_unique pre suf' (keyf b) e.2 pre.length
          hpre hrest
      rw [hstep]
      have hassoc : pre ++ (keyf b, pre.length) :: suf' =
          (pre ++ [(keyf b, pre.length)]) ++ suf' := by simp
      rw [hassoc]
      have hlen : pre.length + 1 = (pre ++ [(keyf b, pre.length)]).length := by
        simp
      rw [hlen]
      rw [foldSelf_general keyf items (pre ++ [(keyf b, pre.length)]) suf'
        hkeys'
        (by
          simp only [List.map_append, List.map_cons, List.map_nil,
            List.append_assoc, List.singleton_append, List.nil_append,
            List.cons_append]
          rw [hkey]
          have hn := hnodup
          simp only [List.map_append, List.map_cons] at hn
          simpa using hn)]
      rw [List.map_cons, List.enumFrom_cons, List.map_cons]
      simp only [List.length_append, List.length_cons, List.length_nil,
        Nat.add_zero]
      rw [← hkey]
      simp

/-- Folding `map.delete` over a list of keys filters those keys out. -/
theorem foldl_mapDelete_eq_filter (keyf : β → KnotId) :
    ∀ (items : List β) (m : OrderMap),
    items.foldl (fun acc b => mapDelete acc (keyf b)) m =
      m.filter (fun e => !((items.map keyf).contains e.1))
  | [], m => by
    simp only [List.foldl_nil, List.map_nil]
    rw [List.filter_eq_self.mpr]
    intro e _
    simp [List.contains]
  | b :: items, m => by
    rw [List.foldl_cons, foldl_mapDelete_eq_filter keyf items _]
    unfold mapDelete
    rw [List.filter_filter]
    refine List.filter_congr ?_
    intro e _
    rw [List.map_cons, List.contains_cons]
    cases h1 : (e.1 == keyf b) <;> cases h2 : (items.map keyf).contains e.1
      <;> simp [h1, h2]

theorem map_id_filter_comm (p : KnotId → Bool) :
    ∀ (l : List KnotAnnotation),
    (l.filter (fun k => p k.id)).map (fun k => k.id) =
      (l.map (fun k => k.id)).filter p
  | [] => rfl
  | a :: l => by
    rw [List.filter_cons, List.map_cons, List.filter_cons]
    by_cases h : p a.id = true
    · rw [if_pos h, if_pos h, List.map_cons, map_id_filter_comm p l]
    · rw [if_neg h, if_neg h, map_id_filter_comm p l]

/-- The values of an id-to-position map ascend in entry order. -/
theorem enumRanks_pairwise (l : List KnotAnnotation) :
    (enumRanks l).Pairwise (fun a b => a.2 < b.2) := by
  unfold enumRanks
  rw [List.pairwise_map]
  exact enumFrom_pairwise_fst_lt (l.map (fun k => k.id)) 0

/-- Deleting one key from an id-to-position map and re-ranking gives the
id-to-position map of the filtered list. -/
theorem rerank_delete_enumRanks (l : List KnotAnnotation) (knotId : KnotId)
    (hnodup : (l.map (fun k => k.id)).Nodup)
    (hman : ∀ k ∈ l, k.id.isManual = true) :
    rerankManual (mapDelete (enumRanks l) knotId) =
      enumRanks (l.filter (fun k => !(k.id == knotId))) := by
  set mdel := mapDelete (enumRanks l) knotId with hmdel
  have hsub : mdel.Sublist (enumRanks l) := by
    rw [hmdel]
    exact List.filter_sublist _
  have hmankeys : ∀ e ∈ mdel, e.1.isManual = true := by
    intro e he
    have he' : e ∈ enumRanks l := hsub.subset he
    have hkey := mem_enumRanks_key l e he'
    obtain ⟨k, hk, hkid⟩ := List.mem_map.mp hkey
    rw [← hkid]
    exact hman k hk
  have hkeysnodup : (mdel.map (fun e => e.1)).Nodup := by
    have : (keysOf mdel).Nodup := by
      rw [hmdel, keysOf_mapDelete, keysOf_enumRanks]
      exact hnodup.filter _
    exact this
  have ha : mdel.filter (fun e => e.1.isManual) = mdel :=
    List.filter_eq_self.mpr hmankeys
  have hpair : mdel.Pairwise
      (fun a b : KnotId × Nat => (decide (a.2 ≤ b.2)) = true) := by
    refine List.Pairwise.imp ?_
      (List.Pairwise.sublist hsub (enumRanks_pairwise l))
    intro a b hab
    simpa using Nat.le_of_lt hab
  have hb : stableSort (fun a b : KnotId × Nat => decide (a.2 ≤ b.2)) mdel =
      mdel := stableSort_of_pairwise _ mdel hpair
  have hfold := foldSelf_general (fun e : KnotId × Nat => e.1) mdel [] mdel
    rfl (by simpa using hkeysnodup)
  calc rerankManual mdel
      = (mdel.enum).foldl (fun acc p => mapSet acc p.2.1 p.1) mdel := by
        unfold rerankManual
        rw [ha, hb]
    _ = ((mdel.map (fun e => e.1)).enumFrom 0).map (fun p => (p.2, p.1)) := by
        have hfold' := hfold
        simp only [List.nil_append, List.length_nil] at hfold'
        exact hfold'
    _ = (((l.map (fun k => k.id)).filter
          (fun i => !(i == knotId))).enumFrom 0).map (fun p => (p.2, p.1)) := by
        have hkeys : mdel.map (fun e => e.1) =
            (l.map (fun k => k.id)).filter (fun i => !(i == knotId)) := by
          have h1 : keysOf mdel =
              (keysOf (enumRanks l)).filter (fun i => !(i == knotId)) := by
            rw [hmdel]
            exact keysOf_mapDelete _ _
          rw [keysOf_enumRanks] at h1
          exact h1
        rw [hkeys]
    _ = enumRanks (l.filter (fun k => !(k.id == knotId))) := by
        unfold enumRanks
        rw [map_id_filter_comm (fun i => !(i == knotId)) l]
        rfl

/-- Both removal handlers produce a state of this shape; it preserves the
single-trajectory invariant. -/
theorem removeShape_inv (idx : Nat) (knotId : KnotId) (s : SessionState)
    (hinv : SingleTrajInv idx s) :
    SingleTrajInv idx
      { trajectories := mapAtIdx (fun t =>
          { t with knots := t.knots.filter (fun k => !(k.id == knotId)) })
          idx s.trajectories,
        knotPlacementOrder :=
          rerankManual (mapDelete s.knotPlacementOrder knotId) } := by
  obtain ⟨hmap, hnodup⟩ := hinv
  set s' : SessionState :=
    { trajectories := mapAtIdx (fun t =>
        { t with knots := t.knots.filter (fun k => !(k.id == knotId)) })
        idx s.trajectories,
      knotPlacementOrder :=
        rerankManual (mapDelete s.knotPlacementOrder knotId) } with hs'
  cases h : s.trajectories[idx]? with
  | none =>
    have hold : manualOf s idx = [] := manualOf_eq_none s idx h
    have hnew : manualOf s' idx = [] := by
      refine manualOf_eq_none s' idx ?_
      rw [hs']
      simp only [mapAtIdx_getElem?_self, h]
      rfl
    constructor
    · rw [hs']
      simp only [hnew]
      rw [hmap, hold]
      rfl
    · rw [hnew]
      exact List.Pairwise.nil
  | some t =>
    have hold : manualOf s idx = t.knots.filter (fun k => k.id.isManual) :=
      manualOf_eq_some s idx t h
    have hnew : manualOf s' idx =
        (manualOf s idx).filter (fun k => !(k.id == knotId)) := by
      have hsome : s'.trajectories[idx]? = some
          { t with knots := t.knots.filter (fun k => !(k.id == knotId)) } := by
        rw [hs']
        simp only [mapAtIdx_getElem?_self, h]
        rfl
      rw [manualOf_eq_some s' idx _ hsome, hold]
      simp only
      rw [List.filter_filter, List.filter_filter]
      refine List.filter_congr ?_
      intro k _
      exact Bool.and_comm _ _
    have hman : ∀ k ∈ manualOf s idx, k.id.isManual = true :=
      fun k hk => isManual_of_mem_manualOf s idx k hk
    have hidnodup : ((manualOf s idx).map (fun k => k.id)).Nodup := hnodup
    constructor
    · rw [hnew]
      show rerankManual (mapDelete s.knotPlacementOrder knotId) =
        enumRanks ((manualOf s idx).filter (fun k => !(k.id == knotId)))
      rw [hmap]
      exact rerank_delete_enumRanks (manualOf s idx) knotId hidnodup hman
    · rw [hnew]
      rw [map_id_filter_comm (fun i => !(i == knotId)) (manualOf s idx)]
      exact hnodup.filter _

theorem filter_map_swap (p : (KnotId × Nat) → Bool) :
    ∀ (l : List (Nat × KnotId)),
    (l.map (fun q => (q.2, q.1))).filter p =
      (l.filter (fun q => p (q.2, q.1))).map (fun q => (q.2, q.1))
  | [] => rfl
  | (i, k) :: l => by
    by_cases h : p (k, i) = true
    · simp [h, filter_map_swap p l]
    · simp [h, filter_map_swap p l]

theorem enum_filter_not_drop [DecidableEq α] (ids : List α) (count : Nat)
    (hnodup : ids.Nodup) (hc : count ≤ ids.length) :
    ids.enum.filter (fun q => !((ids.drop count).contains q.2)) =
      (ids.take count).enum := by
  have hsplit : ids.enum = (ids.take count).enum ++
      List.enumFrom (ids.take count).length (ids.drop count) := by
    conv_lhs => rw [show ids.enum = (ids.take count ++ ids.drop count).enum
      from by rw [List.take_append_drop]]
    rw [List.enum_append]
  rw [hsplit, List.filter_append]
  have hdisj : ∀ a ∈ ids.take count, a ∉ ids.drop count := by
    have h2 := hnodup
    rw [← List.take_append_drop count ids, List.nodup_append] at h2
    exact h2.2.2
  have h1 : (ids.take count).enum.filter
      (fun q => !((ids.drop count).contains q.2)) =
      (ids.take count).enum := by
    rw [List.filter_eq_self]
    intro q hq
    have hq2 : q.2 ∈ ids.take count := List.snd_mem_of_mem_enumFrom hq
    have : ¬(ids.drop count).contains q.2 = true := by
      intro hcon
      exact hdisj q.2 hq2 (List.elem_iff.mp hcon)
    cases hcon : (ids.drop count).contains q.2
    · simp
    · exact absurd hcon this
  have h2 : (List.enumFrom (ids.take count).length (ids.drop count)).filter
      (fun q => !((ids.drop count).contains q.2)) = [] := by
    rw [List.filter_eq_nil_iff]
    intro q hq
    have hq2 : q.2 ∈ ids.drop count := List.snd_mem_of_mem_enumFrom hq
    have hcon : (ids.drop count).contains q.2 = true := List.elem_iff.mpr hq2
    rw [hcon]
    simp
  rw [h1, h2, List.append_nil]

/-- Folding deletions of the dropped knots' ids over an id-to-position map
leaves the id-to-position map of the kept prefix. -/
theorem deleted_enumRanks_take (l : List KnotAnnotation) (count : Nat)
    (hnodup : (l.map (fun k => k.id)).Nodup) (hc : count ≤ l.length) :
    (l.drop count).foldl (fun acc k => mapDelete acc k.id)
      (enumRanks l) = enumRanks (l.take count) := by
  rw [foldl_mapDelete_eq_filter (fun k : KnotAnnotation => k.id)]
  unfold enumRanks
  rw [filter_map_swap
    (fun e => !(((l.drop count).map (fun k => k.id)).contains e.1))]
  rw [List.map_take]
  congr 1
  have hcongr : (l.map (fun k => k.id)).enum.filter
      (fun q => !(((l.drop count).map (fun k => k.id)).contains
        ((q.2, q.1) : KnotId × Nat).1)) =
      (l.map (fun k => k.id)).enum.filter
      (fun q => !(((l.map (fun k => k.id)).drop count).contains q.2)) := by
    rw [List.map_drop]
  rw [hcongr]
  exact enum_filter_not_drop (l.map (fun k => k.id)) count hnodup
    (by rw [List.length_map]; exact hc)

/-- The state shape produced by an accepted placeKnot. -/
def placeShapeState (idx : Nat) (kid : KnotId) (kx ky : ℚ)
    (ord : Option Nat) (s : SessionState) : SessionState :=
  { trajectories := mapAtIdx
      (fun t' => { t' with knots := t'.knots ++ [⟨kid, kx, ky, ord⟩] })
      idx s.trajectories,
    knotPlacementOrder := mapSet s.knotPlacementOrder kid
      ((s.knotPlacementOrder.filter (fun e => e.1.isManual)).length) }

theorem handleChartClick_cases (idx : Nat) (x y : ℚ) (stamp : Nat)
    (s : SessionState) :
    (handleChartClick idx x y stamp s).1 = s ∨
    ∃ t, s.trajectories[idx]? = some t ∧
      (handleChartClick idx x y stamp s).1 =
        placeShapeState idx (.manualKnot stamp) x y
          (some ((s.knotPlacementOrder.filter
            (fun e => e.1.isManual)).length)) s := by
  unfold handleChartClick placeShapeState
  split
  · exact Or.inl rfl
  · rename_i t heq
    split
    · exact Or.inl rfl
    · exact Or.inr ⟨t, heq, rfl⟩

theorem removeLastKnot_cases (idx : Nat) (s : SessionState) :
    removeLastKnot idx s = s ∨
    ∃ t lastK, s.trajectories[idx]? = some t ∧
      (t.knots.filter (fun k => k.id.isManual)).getLast? = some lastK ∧
      removeLastKnot idx s =
        { trajectories := mapAtIdx (fun t' => { t' with
            knots := t'.knots.filter (fun k => !(k.id == lastK.id)) })
            idx s.trajectories,
          knotPlacementOrder :=
            rerankManual (mapDelete s.knotPlacementOrder lastK.id) } := by
  unfold removeLastKnot
  split
  · exact Or.inl rfl
  · rename_i t heq
    split
    · exact Or.inl rfl
    · rename_i lastK heq2
      exact Or.inr ⟨t, lastK, heq, heq2, rfl⟩

theorem removeKnot_cases (idx : Nat) (knotId : KnotId) (s : SessionState) :
    (removeKnot idx knotId s).1 = s ∨
    (removeKnot idx knotId s).1 =
      { trajectories := mapAtIdx (fun t' => { t' with
          knots := t'.knots.filter (fun k => !(k.id == knotId)) })
          idx s.trajectories,
        knotPlacementOrder :=
          rerankManual (mapDelete s.knotPlacementOrder knotId) } := by
  unfold removeKnot
  split
  · exact Or.inl rfl
  · exact Or.inr rfl

/-- The state shape produced by a budget change on an existing trajectory. -/
def setBudgetShapeState (idx count : Nat) (t : TrajectoryWithKnots)
    (s : SessionState) : SessionState :=
  { trajectories := mapAtIdx
      (fun t' =>
        { t' with
          selectedKnotCount := count,
          knots := (if count <
                (t.knots.filter (fun k => k.id.isManual)).length then
                (t.knots.filter (fun k => k.id.isManual)).take count
              else t.knots.filter (fun k => k.id.isManual)) ++
            (t.knots.find? (fun k => k.id.isStart)).toList ++
            (t.knots.find? (fun k => k.id.isEnd)).toList })
      idx s.trajectories,
    knotPlacementOrder :=
      if count < (t.knots.filter (fun k => k.id.isManual)).length then
        ((if count < (t.knots.filter (fun k => k.id.isManual)).length then
            (t.knots.filter (fun k => k.id.isManual)).take count
          else t.knots.filter (fun k => k.id.isManual)).enum).foldl
          (fun acc p => mapSet acc p.2.id p.1)
          (((t.knots.filter (fun k => k.id.isManual)).drop count).foldl
            (fun acc k => mapDelete acc k.id) s.knotPlacementOrder)
      else s.knotPlacementOrder }

theorem handleKnotCountChange_cases (idx count : Nat) (s : SessionState) :
    handleKnotCountChange idx count s = s ∨
    ∃ t, s.trajectories[idx]? = some t ∧
      handleKnotCountChange idx count s = setBudgetShapeState idx count t s := by
  unfold handleKnotCountChange setBudgetShapeState
  split
  · exact Or.inl rfl
  · rename_i t heq
    exact Or.inr ⟨t, heq, rfl⟩

theorem filter_manual_find_start_toList (l : List KnotAnnotation) :
    ((l.find? (fun k => k.id.isStart)).toList).filter
      (fun k => k.id.isManual) = [] := by
  cases h : l.find? (fun k => k.id.isStart) with
  | none => rfl
  | some st =>
    have hst := List.find?_some h
    simp [isManual_false_of_isStart _ hst]

theorem filter_manual_find_end_toList (l : List KnotAnnotation) :
    ((l.find? (fun k => k.id.isEnd)).toList).filter
      (fun k => k.id.isManual) = [] := by
  cases h : l.find? (fun k => k.id.isEnd) with
  | none => rfl
  | some en =>
    have hen := List.find?_some h
    simp [isManual_false_of_isEnd _ hen]

/-- The placeKnot update shape preserves the invariant and appends the new
manual knot. -/
theorem placeShape_inv (idx : Nat) (kid : KnotId) (kx ky : ℚ)
    (ord : Option Nat) (s : SessionState) (t : TrajectoryWithKnots)
    (ht : s.trajectories[idx]? = some t) (hinv : SingleTrajInv idx s)
    (hman : kid.isManual = true)
    (hfresh : kid ∉ (manualOf s idx).map (fun k => k.id)) :
    manualOf (placeShapeState idx kid kx ky ord s) idx =
      manualOf s idx ++ [⟨kid, kx, ky, ord⟩] ∧
    SingleTrajInv idx (placeShapeState idx kid kx ky ord s) := by
  obtain ⟨hmap, hnodup⟩ := hinv
  have hold : manualOf s idx = t.knots.filter (fun k => k.id.isManual) :=
    manualOf_eq_some s idx t ht
  have hsome : (placeShapeState idx kid kx ky ord s).trajectories[idx]? =
      some { t with knots := t.knots ++ [⟨kid, kx, ky, ord⟩] } := by
    unfold placeShapeState
    simp only [mapAtIdx_getElem?_self, ht, Option.map_some']
  have hnew : manualOf (placeShapeState idx kid kx ky ord s) idx =
      manualOf s idx ++ [⟨kid, kx, ky, ord⟩] := by
    rw [manualOf_eq_some _ idx _ hsome]
    simp only [List.filter_append]
    rw [hold]
    congr 1
    simp [hman]
  have hallman : ∀ e ∈ s.knotPlacementOrder, e.1.isManual = true := by
    intro e he
    rw [hmap] at he
    obtain ⟨k, hk, hkid⟩ :=
      List.mem_map.mp (mem_enumRanks_key (manualOf s idx) e he)
    rw [← hkid]
    exact isManual_of_mem_manualOf s idx k hk
  have hfreshm : ∀ e ∈ s.knotPlacementOrder, e.1 ≠ kid := by
    intro e he hcontra
    rw [hmap] at he
    have := mem_enumRanks_key (manualOf s idx) e he
    rw [hcontra] at this
    exact hfresh this
  refine ⟨hnew, ?_, ?_⟩
  · show mapSet s.knotPlacementOrder kid
        ((s.knotPlacementOrder.filter (fun e => e.1.isManual)).length) =
      enumRanks (manualOf _ idx)
    rw [hnew]
    rw [mapSet_of_fresh _ _ _ hfreshm]
    rw [List.filter_eq_self.mpr hallman]
    rw [enumRanks_append_singleton]
    rw [hmap, enumRanks_length]
  · rw [hnew]
    rw [List.map_append]
    rw [List.nodup_append]
    refine ⟨hnodup, by simp, ?_⟩
    intro a ha hb
    simp only [List.map_cons, List.map_nil, List.mem_singleton] at hb
    rw [hb] at ha
    exact hfresh ha

theorem manualOf_removeShape (idx : Nat) (knotId : KnotId)
    (s : SessionState) :
    manualOf
      { trajectories := mapAtIdx (fun t =>
          { t with knots := t.knots.filter (fun k => !(k.id == knotId)) })
          idx s.trajectories,
        knotPlacementOrder :=
          rerankManual (mapDelete s.knotPlacementOrder knotId) } idx =
      (manualOf s idx).filter (fun k => !(k.id == knotId)) := by
  cases h : s.trajectories[idx]? with
  | none =>
    rw [manualOf_eq_none s idx h]
    rw [manualOf_eq_none _ idx ?_]
    · rfl
    · simp only [mapAtIdx_getElem?_self, h]
      rfl
  | some t =>
    rw [manualOf_eq_some s idx t h]
    rw [manualOf_eq_some _ idx
      { t with knots := t.knots.filter (fun k => !(k.id == knotId)) } ?_]
    · simp only
      rw [List.filter_filter, List.filter_filter]
      refine List.filter_congr ?_
      intro k _
      exact Bool.and_comm _ _
    · simp only [mapAtIdx_getElem?_self, h]
      rfl

/-- The budget-change shape: the target trajectory's manual knots become the
(possibly truncated) manual list, and the invariant is preserved. -/
theorem setBudgetShape_inv (idx count : Nat) (t : TrajectoryWithKnots)
    (s : SessionState) (ht : s.trajectories[idx]? = some t)
    (hinv : SingleTrajInv idx s) :
    manualOf (setBudgetShapeState idx count t s) idx =
      (if count < (t.knots.filter (fun k => k.id.isManual)).length then
        (t.knots.filter (fun k => k.id.isManual)).take count
      else t.knots.filter (fun k => k.id.isManual)) ∧
    SingleTrajInv idx (setBudgetShapeState idx count t s) := by
  obtain ⟨hmap, hnodup⟩ := hinv
  have hold : manualOf s idx = t.knots.filter (fun k => k.id.isManual) :=
    manualOf_eq_some s idx t ht
  have hnodupM : ((t.knots.filter (fun k => k.id.isManual)).map
      (fun k => k.id)).Nodup := by
    rw [← hold]
    exact hnodup
  have hsubM : (if count < (t.knots.filter (fun k => k.id.isManual)).length
      then (t.knots.filter (fun k => k.id.isManual)).take count
      else t.knots.filter (fun k => k.id.isManual)) ⊆
      t.knots.filter (fun k => k.id.isManual) := by
    split
    · exact List.take_subset _ _
    · exact fun a ha => ha
  have hsome : (setBudgetShapeState idx count t s).trajectories[idx]? =
      some { t with
        selectedKnotCount := count,
        knots := (if count <
            (t.knots.filter (fun k => k.id.isManual)).length then
            (t.knots.filter (fun k => k.id.isManual)).take count
          else t.knots.filter (fun k => k.id.isManual)) ++
          (t.knots.find? (fun k => k.id.isStart)).toList ++
          (t.knots.find? (fun k => k.id.isEnd)).toList } := by
    unfold setBudgetShapeState
    simp only [mapAtIdx_getElem?_self, ht, Option.map_some']
  have hmanual : manualOf (setBudgetShapeState idx count t s) idx =
      (if count < (t.knots.filter (fun k => k.id.isManual)).length then
        (t.knots.filter (fun k => k.id.isManual)).take count
      else t.knots.filter (fun k => k.id.isManual)) := by
    rw [manualOf_eq_some _ idx _ hsome]
    simp only [List.filter_append]
    rw [filter_manual_find_start_toList, filter_manual_find_end_toList]
    rw [List.append_nil, List.append_nil]
    refine List.filter_eq_self.mpr ?_
    intro k hk
    exact (List.mem_filter.mp (hsubM hk)).2
  refine ⟨hmanual, ?_, ?_⟩
  · show (setBudgetShapeState idx count t s).knotPlacementOrder =
      enumRanks (manualOf (setBudgetShapeState idx count t s) idx)
    rw [hmanual]
    by_cases hc : count < (t.knots.filter (fun k => k.id.isManual)).length
    · rw [if_pos hc]
      have hstep1 : (setBudgetShapeState idx count t s).knotPlacementOrder =
          (((t.knots.filter (fun k => k.id.isManual)).take
            count).enum).foldl (fun acc p => mapSet acc p.2.id p.1)
            (((t.knots.filter (fun k => k.id.isManual)).drop count).foldl
              (fun acc k => mapDelete acc k.id) s.knotPlacementOrder) := by
        unfold setBudgetShapeState
        simp only
        rw [if_pos hc, if_pos hc]
      rw [hstep1, hmap, hold]
      rw [deleted_enumRanks_take (t.knots.filter (fun k => k.id.isManual))
        count hnodupM (Nat.le_of_lt hc)]
      have htakeNodup : (((t.knots.filter
          (fun k => k.id.isManual)).take count).map (fun k => k.id)).Nodup :=
        List.Nodup.sublist ((List.take_sublist _ _).map _) hnodupM
      have hf := foldSelf_general (fun k : KnotAnnotation => k.id)
        ((t.knots.filter (fun k => k.id.isManual)).take count) []
        (enumRanks ((t.knots.filter (fun k => k.id.isManual)).take count))
        (by
          rw [show (enumRanks ((t.knots.filter
              (fun k => k.id.isManual)).take count)).map
              (fun e => e.1) =
            keysOf (enumRanks ((t.knots.filter
              (fun k => k.id.isManual)).take count)) from rfl]
          rw [keysOf_enumRanks])
        (by
          simp only [List.nil_append]
          rw [show (enumRanks ((t.knots.filter
              (fun k => k.id.isManual)).take count)).map (fun e => e.1) =
            keysOf (enumRanks ((t.knots.filter
              (fun k => k.id.isManual)).take count)) from rfl]
          rw [keysOf_enumRanks]
          exact htakeNodup)
      simp only [List.nil_append, List.length_nil] at hf
      calc (((t.knots.filter (fun k => k.id.isManual)).take
            count).enum).foldl (fun acc p => mapSet acc p.2.id p.1)
            (enumRanks ((t.knots.filter (fun k => k.id.isManual)).take
              count)) =
          (((enumRanks ((t.knots.filter (fun k => k.id.isManual)).take
            count)).map (fun e => e.1)).enumFrom 0).map
            (fun p => (p.2, p.1)) := hf
        _ = enumRanks ((t.knots.filter (fun k => k.id.isManual)).take
            count) := by
          rw [show (enumRanks ((t.knots.filter
              (fun k => k.id.isManual)).take count)).map (fun e => e.1) =
            keysOf (enumRanks ((t.knots.filter
              (fun k => k.id.isManual)).take count)) from rfl]
          rw [keysOf_enumRanks]
          rfl
    · rw [if_neg hc]
      have hstep1 : (setBudgetShapeState idx count t s).knotPlacementOrder =
          s.knotPlacementOrder := by
        unfold setBudgetShapeState
        simp only
        rw [if_neg hc]
      rw [hstep1, hmap, hold]
  · rw [hmanual]
    split
    · exact List.Nodup.sublist ((List.take_sublist _ _).map _) hnodupM
    · exact hnodupM

/-- Every single mutation preserves the single-trajectory invariant, and
introduces no manual id other than the placed one. -/
theorem applyOp_inv (idx : Nat) (s : SessionState) (op : AnnotationOp)
    (hinv : SingleTrajInv idx s)
    (hfresh : ∀ x y stamp, op = .place x y stamp →
      KnotId.manualKnot stamp ∉ (manualOf s idx).map (fun k => k.id)) :
    SingleTrajInv idx (applyOp idx s op) ∧
    (∀ id ∈ (manualOf (applyOp idx s op) idx).map (fun k => k.id),
      id ∈ (manualOf s idx).map (fun k => k.id) ∨
      ∃ x y stamp, op = AnnotationOp.place x y stamp ∧
        id = KnotId.manualKnot stamp) := by
  cases op with
  | place x y stamp =>
    simp only [applyOp]
    rcases handleChartClick_cases idx x y stamp s with heq | ⟨t, ht, heq⟩
    · rw [heq]
      exact ⟨hinv, fun id hid => Or.inl hid⟩
    · rw [heq]
      obtain ⟨hman, hinv'⟩ := placeShape_inv idx (.manualKnot stamp) x y
        (some ((s.knotPlacementOrder.filter
          (fun e => e.1.isManual)).length)) s t ht hinv rfl
        (hfresh x y stamp rfl)
      refine ⟨hinv', ?_⟩
      intro id hid
      rw [hman, List.map_append] at hid
      rcases List.mem_append.mp hid with h1 | h1
      · exact Or.inl h1
      · simp only [List.map_cons, List.map_nil, List.mem_singleton] at h1
        exact Or.inr ⟨x, y, stamp, rfl, h1⟩
  | remove knotId =>
    simp only [applyOp]
    rcases removeKnot_cases idx knotId s with heq | heq
    · rw [heq]
      exact ⟨hinv, fun id hid => Or.inl hid⟩
    · rw [heq]
      refine ⟨removeShape_inv idx knotId s hinv, ?_⟩
      intro id hid
      rw [manualOf_removeShape] at hid
      obtain ⟨k, hk, hkid⟩ := List.mem_map.mp hid
      exact Or.inl (List.mem_map.mpr ⟨k, List.mem_of_mem_filter hk, hkid⟩)
  | removeLast =>
    simp only [applyOp]
    rcases removeLastKnot_cases idx s with heq | ⟨t, lastK, ht, hlast, heq⟩
    · rw [heq]
      exact ⟨hinv, fun id hid => Or.inl hid⟩
    · rw [heq]
      refine ⟨removeShape_inv idx lastK.id s hinv, ?_⟩
      intro id hid
      rw [manualOf_removeShape] at hid
      obtain ⟨k, hk, hkid⟩ := List.mem_map.mp hid
      exact Or.inl (List.mem_map.mpr ⟨k, List.mem_of_mem_filter hk, hkid⟩)
  | setBudget count =>
    simp only [applyOp]
    rcases handleKnotCountChange_cases idx count s with heq | ⟨t, ht, heq⟩
    · rw [heq]
      exact ⟨hinv, fun id hid => Or.inl hid⟩
    · rw [heq]
      obtain ⟨hman, hinv'⟩ := setBudgetShape_inv idx count t s ht hinv
      refine ⟨hinv', ?_⟩
      intro id hid
      rw [hman] at hid
      have hold := manualOf_eq_some s idx t ht
      left
      rw [hold]
      revert hid
      split
      · intro hid
        obtain ⟨k, hk, hkid⟩ := List.mem_map.mp hid
        exact List.mem_map.mpr ⟨k, List.take_subset _ _ hk, hkid⟩
      · intro hid
        exact hid

/-- The `Date.now()` stamps of the placeKnot calls in an op sequence. -/
def stampsOf (ops : List AnnotationOp) : List Nat :=
  ops.filterMap (fun op => match op with
    | .place _ _ st => some st
    | _ => none)

theorem stampsOf_cons_shape (op : AnnotationOp) (ops : List AnnotationOp) :
    ((∀ x y st, op ≠ AnnotationOp.place x y st) ∧
      stampsOf (op :: ops) = stampsOf ops) ∨
    ∃ x y st, op = AnnotationOp.place x y st ∧
      stampsOf (op :: ops) = st :: stampsOf ops := by
  cases op with
  | place x y st => exact Or.inr ⟨x, y, st, rfl, rfl⟩
  | remove k => exact Or.inl ⟨fun x y st h => AnnotationOp.noConfusion h, rfl⟩
  | removeLast =>
    exact Or.inl ⟨fun x y st h => AnnotationOp.noConfusion h, rfl⟩
  | setBudget c =>
    exact Or.inl ⟨fun x y st h => AnnotationOp.noConfusion h, rfl⟩

/-- Any sequence of mutations with fresh, distinct place stamps targeting one
trajectory preserves the single-trajectory invariant. -/
theorem runOps_inv (idx : Nat) :
    ∀ (ops : List AnnotationOp) (s : SessionState),
    SingleTrajInv idx s →
    (∀ id ∈ (manualOf s idx).map (fun k => k.id),
      ∀ st ∈ stampsOf ops, id ≠ KnotId.manualKnot st) →
    (stampsOf ops).Nodup →
    SingleTrajInv idx (runOps idx ops s) ∧
    (∀ id ∈ (manualOf (runOps idx ops s) idx).map (fun k => k.id),
      id ∈ (manualOf s idx).map (fun k => k.id) ∨
      ∃ st ∈ stampsOf ops, id = KnotId.manualKnot st)
  | [], s, hinv, _, _ => ⟨hinv, fun id hid => Or.inl hid⟩
  | op :: ops, s, hinv, hsub, hnodup => by
    rcases stampsOf_cons_shape op ops with ⟨hnp, hstamps⟩ |
      ⟨x, y, st, hop, hstamps⟩
    · have hfresh : ∀ x y stamp, op = .place x y stamp →
          KnotId.manualKnot stamp ∉ (manualOf s idx).map (fun k => k.id) :=
        fun x y stamp hop => absurd hop (hnp x y stamp)
      obtain ⟨hinv1, hsub1⟩ := applyOp_inv idx s op hinv hfresh
      have hsub' : ∀ id ∈ (manualOf (applyOp idx s op) idx).map
          (fun k => k.id), ∀ st' ∈ stampsOf ops,
          id ≠ KnotId.manualKnot st' := by
        intro id hid st' hst'
        rcases hsub1 id hid with hold | ⟨x, y, stamp, hop, _⟩
        · exact hsub id hold st' (by rw [hstamps]; exact hst')
        · exact absurd hop (hnp x y stamp)
      obtain ⟨hinv2, hsub2⟩ := runOps_inv idx ops (applyOp idx s op) hinv1
        hsub' (by rw [← hstamps]; exact hnodup)
      refine ⟨hinv2, ?_⟩
      intro id hid
      rcases hsub2 id hid with hmid | ⟨st', hst', hide⟩
      · rcases hsub1 id hmid with hold | ⟨x, y, stamp, hop, _⟩
        · exact Or.inl hold
        · exact absurd hop (hnp x y stamp)
      · exact Or.inr ⟨st', by rw [hstamps]; exact hst', hide⟩
    · subst hop
      have hfresh : ∀ x' y' stamp,
          AnnotationOp.place x y st = .place x' y' stamp →
          KnotId.manualKnot stamp ∉
            (manualOf s idx).map (fun k => k.id) := by
        intro x' y' stamp hop
        injection hop with h1 h2 h3
        subst h3
        intro hmem
        exact hsub _ hmem st
          (by rw [hstamps]; exact List.mem_cons_self _ _) rfl
      obtain ⟨hinv1, hsub1⟩ :=
        applyOp_inv idx s (.place x y st) hinv hfresh
      have hnodup' : (stampsOf ops).Nodup := by
        rw [hstamps] at hnodup
        exact hnodup.of_cons
      have hstnot : st ∉ stampsOf ops := by
        rw [hstamps] at hnodup
        exact (List.nodup_cons.mp hnodup).1
      have hsub' : ∀ id ∈ (manualOf (applyOp idx s
          (AnnotationOp.place x y st)) idx).map (fun k => k.id),
          ∀ st' ∈ stampsOf ops, id ≠ KnotId.manualKnot st' := by
        intro id hid st' hst' hide
        rcases hsub1 id hid with hold | ⟨x', y', stamp, hop, hidst⟩
        · exact hsub id hold st'
            (by rw [hstamps]; exact List.mem_cons_of_mem _ hst') hide
        · injection hop with h1 h2 h3
          subst h3
          rw [hidst] at hide
          have hstst : st = st' := by injection hide
          exact hstnot (hstst ▸ hst')
      obtain ⟨hinv2, hsub2⟩ := runOps_inv idx ops
        (applyOp idx s (.place x y st)) hinv1 hsub' hnodup'
      refine ⟨hinv2, ?_⟩
      intro id hid
      rcases hsub2 id hid with hmid | ⟨st', hst', hide⟩
      · rcases hsub1 id hmid with hold | ⟨x', y', stamp, hop, hidst⟩
        · exact Or.inl hold
        · injection hop with h1 h2 h3
          subst h3
          exact Or.inr ⟨st,
            by rw [hstamps]; exact List.mem_cons_self _ _, hidst⟩
      · exact Or.inr ⟨st',
          by rw [hstamps]; exact List.mem_cons_of_mem _ hst', hide⟩

theorem find?_enumFrom_swap :
    ∀ (l : List KnotAnnotation), (l.map (fun k => k.id)).Nodup →
    ∀ (n i : Nat) (h : i < l.length),
    ((((l.map (fun k => k.id)).enumFrom n).map
      (fun p => (p.2, p.1))).find? (fun e => e.1 == l[i].id)) =
      some (l[i].id, n + i)
  | [], _, n, i, h => absurd h (by simp)
  | a :: l, hnodup, n, 0, h => by
    simp [List.enumFrom_cons]
  | a :: l, hnodup, n, i + 1, h => by
    have hil : i < l.length := by
      simpa using Nat.lt_of_succ_lt_succ h
    have hne : (a.id == (a :: l)[i + 1].id) = false := by
      rw [List.getElem_cons_succ]
      have hmem : l[i].id ∈ l.map (fun k => k.id) :=
        List.mem_map.mpr ⟨l[i], List.getElem_mem hil, rfl⟩
      have hnot : a.id ∉ l.map (fun k => k.id) :=
        (List.nodup_cons.mp hnodup).1
      refine beq_eq_false_iff_ne.mpr ?_
      intro hcontra
      rw [hcontra] at hnot
      exact hnot hmem
    simp only [List.map_cons, List.enumFrom_cons, List.map_cons]
    rw [List.find?_cons_of_neg _ (by simpa using hne)]
    have hrec := find?_enumFrom_swap l (List.nodup_cons.mp hnodup).2
      (n + 1) i hil
    rw [List.getElem_cons_succ]
    rw [hrec]
    have harith : n + 1 + i = n + (i + 1) := by omega
    rw [harith]

theorem mapGet_enumRanks (l : List KnotAnnotation)
    (hnodup : (l.map (fun k => k.id)).Nodup) (i : Nat) (h : i < l.length) :
    mapGet (enumRanks l) l[i].id = some i := by
  unfold mapGet enumRanks
  rw [show (l.map (fun k => k.id)).enum =
    (l.map (fun k => k.id)).enumFrom 0 from rfl]
  rw [find?_enumFrom_swap l hnodup 0 i h]
  simp

/-- In an invariant state, reading the map ranks of the manual knots in
array order yields `0, 1, ..., n-1`. -/
theorem ranks_in_array_order (l : List KnotAnnotation)
    (hnodup : (l.map (fun k => k.id)).Nodup) :
    l.map (fun k => mapGet (enumRanks l) k.id) =
      (List.range l.length).map some := by
  refine List.ext_getElem (by simp) ?_
  intro i h1 h2
  rw [List.getElem_map, List.getElem_map, List.getElem_range]
  exact mapGet_enumRanks l hnodup i (by simpa using h1)

theorem filter_ne_last (l : List KnotAnnotation) (lk : KnotAnnotation)
    (hnodup : (l.map (fun k => k.id)).Nodup)
    (hlast : l.getLast? = some lk) :
    l.filter (fun k => !(k.id == lk.id)) = l.dropLast := by
  have hne : l ≠ [] := by
    intro h
    rw [h] at hlast
    cases hlast
  have hlk : l.getLast hne = lk := by
    rw [List.getLast?_eq_getLast l hne] at hlast
    exact Option.some.inj hlast
  have hl : l.dropLast ++ [lk] = l := by
    rw [← hlk]
    exact List.dropLast_append_getLast hne
  conv_lhs => rw [← hl]
  rw [List.filter_append]
  have h2 : [lk].filter (fun k => !(k.id == lk.id)) = [] := by simp
  rw [h2, List.append_nil]
  conv_rhs => rw [← hl]
  rw [List.dropLast_concat]
  rw [List.filter_eq_self]
  intro k hk
  have hnd := hnodup
  rw [← hl, List.map_append, List.nodup_append] at hnd
  have hne2 : k.id ≠ lk.id := by
    intro hcontra
    exact hnd.2.2 (List.mem_map.mpr ⟨k, hk, rfl⟩)
      (by simp [hcontra])
  simp [hne2]

theorem removeLastKnot_eq (idx : Nat) (s : SessionState)
    (t : TrajectoryWithKnots) (lk : KnotAnnotation)
    (ht : s.trajectories[idx]? = some t)
    (hl : (t.knots.filter (fun k => k.id.isManual)).getLast? = some lk) :
    removeLastKnot idx s =
      { trajectories := mapAtIdx (fun t' => { t' with
          knots := t'.knots.filter (fun k => !(k.id == lk.id)) })
          idx s.trajectories,
        knotPlacementOrder :=
          rerankManual (mapDelete s.knotPlacementOrder lk.id) } := by
  unfold removeLastKnot
  split
  · rename_i heq
    rw [ht] at heq
    exact Option.noConfusion heq
  · rename_i traj heq
    rw [ht] at heq
    injection heq with heq'
    subst heq'
    split
    · rename_i heq2
      rw [hl] at heq2
      exact Option.noConfusion heq2
    · rename_i lastK heq2
      rw [hl] at heq2
      injection heq2 with heq2'
      subst heq2'
      rfl

theorem handleKnotCountChange_eq (idx count : Nat) (s : SessionState)
    (t : TrajectoryWithKnots) (ht : s.trajectories[idx]? = some t) :
    handleKnotCountChange idx count s = setBudgetShapeState idx count t s := by
  unfold handleKnotCountChange setBudgetShapeState
  split
  · rename_i heq
    rw [ht] at heq
    exact Option.noConfusion heq
  · rename_i traj heq
    rw [ht] at heq
    injection heq with heq'
    subst heq'
    rfl

theorem exists_traj_of_manualOf_ne_nil (s : SessionState) (idx : Nat)
    (h : manualOf s idx ≠ []) : ∃ t, s.trajectories[idx]? = some t := by
  cases ht : s.trajectories[idx]? with
  | none => exact absurd (manualOf_eq_none s idx ht) h
  | some t => exact ⟨t, rfl⟩

/-- C10 (amended): in a session whose mutations all target one trajectory
and whose placement stamps are fresh and pairwise distinct, the reachable
state lists the trajectory's Manual knots in array order with placement
ranks exactly `0, 1, ..., n-1` ascending; consequently removeLastPlaced
removes the highest-ranked (last) Manual knot, and budget truncation keeps
the `count` lowest-ranked ones.  (The original claim, stated for every
reachable state of a multi-trajectory session, is refuted by the
interleaving counterexample.) -/
theorem C10_single_trajectory_array_order_matches_ranks
    (idx : Nat) (ops : List AnnotationOp) (s0 : SessionState)
    (hinv : SingleTrajInv idx s0)
    (hfresh : ∀ id ∈ (manualOf s0 idx).map (fun k => k.id),
      ∀ st ∈ stampsOf ops, id ≠ KnotId.manualKnot st)
    (hnodup : (stampsOf ops).Nodup) :
    ((manualOf (runOps idx ops s0) idx).map
      (fun k => mapGet (runOps idx ops s0).knotPlacementOrder k.id) =
      (List.range (manualOf (runOps idx ops s0) idx).length).map some) ∧
    (∀ lk, (manualOf (runOps idx ops s0) idx).getLast? = some lk →
      manualOf (removeLastKnot idx (runOps idx ops s0)) idx =
        (manualOf (runOps idx ops s0) idx).dropLast ∧
      mapGet (runOps idx ops s0).knotPlacementOrder lk.id =
        some ((manualOf (runOps idx ops s0) idx).length - 1)) ∧
    (∀ count, count < (manualOf (runOps idx ops s0) idx).length →
      manualOf (handleKnotCountChange idx count (runOps idx ops s0)) idx =
        (manualOf (runOps idx ops s0) idx).take count) := by
  obtain ⟨⟨hmap, hnd⟩, _⟩ := runOps_inv idx ops s0 hinv hfresh hnodup
  set s' := runOps idx ops s0 with hs'
  set M := manualOf s' idx with hM
  have hranks : M.map (fun k => mapGet s'.knotPlacementOrder k.id) =
      (List.range M.length).map some := by
    rw [hmap]
    exact ranks_in_array_order M hnd
  refine ⟨hranks, ?_, ?_⟩
  · intro lk hlast
    have hMne : M ≠ [] := by
      intro h
      rw [h] at hlast
      cases hlast
    have hlen : 0 < M.length := List.length_pos.mpr hMne
    obtain ⟨t, ht⟩ := exists_traj_of_manualOf_ne_nil s' idx hMne
    have hMt : M = t.knots.filter (fun k => k.id.isManual) :=
      manualOf_eq_some s' idx t ht
    have hl' : (t.knots.filter (fun k => k.id.isManual)).getLast? =
        some lk := by
      rw [← hMt]
      exact hlast
    constructor
    · rw [removeLastKnot_eq idx s' t lk ht hl']
      rw [manualOf_removeShape]
      rw [← hM]
      exact filter_ne_last M lk hnd hlast
    · have h1 := congrArg (fun l => l[M.length - 1]?) hranks
      simp only [List.getElem?_map] at h1
      have hMl : M[M.length - 1]? = some lk := by
        rw [← List.getLast?_eq_getElem?]
        exact hlast
      rw [hMl, List.getElem?_range (by omega)] at h1
      exact Option.some.inj h1
  · intro count hcount
    have hMne : M ≠ [] := by
      intro h
      rw [h] at hcount
      simp at hcount
    obtain ⟨t, ht⟩ := exists_traj_of_manualOf_ne_nil s' idx hMne
    have hMt : M = t.knots.filter (fun k => k.id.isManual) :=
      manualOf_eq_some s' idx t ht
    rw [handleKnotCountChange_eq idx count s' t ht]
    obtain ⟨hman, _⟩ := setBudgetShape_inv idx count t s' ht ⟨hmap, hnd⟩
    rw [hman]
    rw [if_pos (by rw [← hMt]; exact hcount)]
    rw [← hMt]

/-- The single-trajectory session driven through a budget change and two
knot placements, used to witness the amended array-order invariant. -/
def c10State : SessionState :=
  { trajectories :=
      [{ trackId := 0, data := [], knots := [], selectedKnotCount := 5 }],
    knotPlacementOrder := [] }

def c10Ops : List AnnotationOp :=
  [.place 1 2 100, .place 3 4 200, .removeLast, .place 5 6 300]

theorem C10_single_trajectory_array_order_matches_ranks_witness :
    SingleTrajInv 0 c10State ∧
    (manualOf (runOps 0 c10Ops c10State) 0).map
      (fun k => mapGet (runOps 0 c10Ops c10State).knotPlacementOrder k.id) =
      (List.range (manualOf (runOps 0 c10Ops c10State) 0).length).map
        some :=
  ⟨⟨rfl, by decide⟩,
    (C10_single_trajectory_array_order_matches_ranks 0 c10Ops c10State
      ⟨rfl, by decide⟩ (by decide) (by decide)).1⟩

/-- The two-trajectory session refuting C10 as stated: three placements on
trajectory 0 (session ranks 0, 1, 2), one on trajectory 1 (rank 3), a
budget truncation on trajectory 0 (which renumbers only trajectory 0's
surviving knot), then one more placement on trajectory 1, whose session
rank (the map's manual-entry count, 2) is lower than the rank of the knot
already on trajectory 1. -/
def c10Bad : SessionState :=
  applyOp 1
    (applyOp 0
      (applyOp 1
        (applyOp 0
          (applyOp 0
            (applyOp 0
              { trajectories :=
                  [{ trackId := 0, data := [], knots := [],
                     selectedKnotCount := 5 },
                   { trackId := 1, data := [], knots := [],
                     selectedKnotCount := 5 }],
                knotPlacementOrder := [] }
              (.place 1 1 10))
            (.place 2 2 20))
          (.place 3 3 30))
        (.place 4 4 40))
      (.setBudget 1))
    (.place 5 5 50)

/-- C10 counterexample: in the reachable two-trajectory state `c10Bad`,
trajectory 1's Manual knots read their placement ranks in array order as
`3, 2` — not ascending — and removeLastPlaced removes the rank-2 knot
(stamp 50) even though the highest-ranked Manual knot of the trajectory is
the rank-3 one (stamp 40); so array order is not placement-rank order and
removeLastPlaced does not remove the highest-ranked knot. -/
theorem C10_counterexample_interleaved_rank_order :
    (manualOf c10Bad 1).map
      (fun k => mapGet c10Bad.knotPlacementOrder k.id) =
      [some 3, some 2] ∧
    (manualOf (removeLastKnot 1 c10Bad) 1).map (fun k => k.id) =
      [KnotId.manualKnot 40] ∧
    mapGet c10Bad.knotPlacementOrder (KnotId.manualKnot 40) = some 3 ∧
    mapGet c10Bad.knotPlacementOrder (KnotId.manualKnot 50) = some 2 := by
  decide

/-- C6 counterexample: in the reachable two-trajectory state `c10Bad`,
trajectory 1 holds two Manual knots, the stamp-40 knot of placement rank 3
followed by the stamp-50 knot of placement rank 2; reducing its budget to 1
keeps the array prefix — the rank-3 knot — and drops the rank-2 knot, so
setKnotBudget does not leave the Manual knot with the lowest original
placementRank value (that would be the stamp-50 knot of rank 2). -/
theorem C6_counterexample_truncation_drops_lowest_rank :
    (manualOf c10Bad 1).map (fun k => k.id) =
      [KnotId.manualKnot 40, KnotId.manualKnot 50] ∧
    mapGet c10Bad.knotPlacementOrder (KnotId.manualKnot 40) = some 3 ∧
    mapGet c10Bad.knotPlacementOrder (KnotId.manualKnot 50) = some 2 ∧
    1 < (manualOf c10Bad 1).length ∧
    (manualOf (handleKnotCountChange 1 1 c10Bad) 1).map (fun k => k.id) =
      [KnotId.manualKnot 40] := by
  decide

end SurveyKnots
